import Mathlib

/-!
Verification of the torrentz BitTorrent client core against its
natural-language specification.

The Rust sources are shallowly embedded: byte buffers become `List Nat`
(each entry a byte value), machine integers become `Nat`/`Int` with
explicit `% 2 ^ w` where wrap-around matters, and fallible operations
return `Except`/`Option`.  Every definition is translated from the
source files (src/protocol.rs, src/torrent.rs, src/manager.rs,
src/piece.rs, src/tracker.rs, src/peer.rs); behaviour of the third-party
crates the code calls (byteorder, sha1, serde_bencode) is modelled from
their documented semantics.
-/

namespace Torrentz

/-! ### Byte-order helpers (model of the byteorder crate, big-endian) -/

/-- Big-endian bytes of the low 32 bits of a natural number, as written by
byteorder's 32-bit big-endian writer. -/
def u32be (n : Nat) : List Nat :=
  [n / 2 ^ 24 % 256, n / 2 ^ 16 % 256, n / 2 ^ 8 % 256, n % 256]

/-- Big-endian bytes of the low 64 bits of a natural number. -/
def u64be (n : Nat) : List Nat :=
  u32be (n / 2 ^ 32) ++ u32be n

/-- Reading a 32-bit big-endian integer from the front of a buffer;
fails when fewer than four bytes remain (model of byteorder's reader). -/
def readU32 : List Nat → Option (Nat × List Nat)
  | a :: b :: c :: d :: rest =>
      some (a * 2 ^ 24 + b * 2 ^ 16 + c * 2 ^ 8 + d, rest)
  | _ => none

/-! ### piece.rs -/

/-- Model of BlockState from piece.rs. -/
inductive BlockState where
  | NotRequested
  | Requested
  | Downloaded
deriving DecidableEq, Repr

/-- Model of Block from piece.rs. -/
structure Block where
  offset : Nat
  length : Nat
  state : BlockState
deriving DecidableEq, Repr

/-- Model of Piece from piece.rs. -/
structure Piece where
  index : Nat
  blocks : List Block
deriving DecidableEq, Repr

/-! ### torrent.rs: data model -/

/-- Model of TorrentFile from torrent.rs; byte strings are byte lists. -/
structure TorrentFile where
  length : Int
  path : List (List Nat)
deriving DecidableEq, Repr

/-- Model of Info from torrent.rs. -/
structure Info where
  name : List Nat
  piece_length : Int
  pieces : List Nat
  length : Option Int
  files : Option (List TorrentFile)
deriving DecidableEq, Repr

/-- Model of Torrent from torrent.rs.  info_raw_bytes is the serde
re-encoding of the info value, as produced by Torrent::from_file. -/
structure Torrent where
  announce : List Nat
  info : Info
  info_raw_bytes : List Nat
deriving DecidableEq, Repr

/-- Model of FileEntry from torrent.rs: the path is the list of path
segments that the Rust code pushes onto a PathBuf rooted at info.name. -/
structure FileEntry where
  length : Int
  path : List (List Nat)
deriving DecidableEq, Repr

/-- Model of Torrent::files. -/
def Torrent.files (t : Torrent) : List FileEntry :=
  match t.info.files with
  | some fs => fs.map (fun f => { length := f.length, path := t.info.name :: f.path })
  | none => [{ length := t.info.length.getD 0, path := [t.info.name] }]

/-- Model of Torrent::total_size: sum of the lengths of all files. -/
def Torrent.total_size (t : Torrent) : Int :=
  (t.files.map (fun f => f.length)).sum

/-- Model of Torrent::pieces_count: pieces byte length divided by 20
(flooring division, exactly as the Rust integer division does). -/
def Torrent.pieces_count (t : Torrent) : Nat :=
  t.info.pieces.length / 20

/-- Model of Torrent::piece_length. -/
def Torrent.piece_length (t : Torrent) : Int :=
  t.info.piece_length

/-- Rust's i64 → usize cast on a 64-bit platform: two's-complement
truncation to 64 bits. -/
def usize_of_int (x : Int) : Nat :=
  (x % (2 ^ 64 : Int)).toNat

/-! ### manager.rs -/

/-- Model of PieceManager from manager.rs. -/
structure PieceManager where
  pieces : List Piece
  len : Nat
  last_len : Nat
  block_size : Nat
deriving DecidableEq, Repr

/-- The block list built for one piece inside PieceManager::new: the Rust
iterator (0..piece_size).step_by(block_size) yields the offsets
k * block_size for k < ceil(piece_size / block_size), and each block gets
length min(block_size, piece_size - offset) and state NotRequested. -/
def blocksFor (piece_size block_size : Nat) : List Block :=
  (List.range ((piece_size + block_size - 1) / block_size)).map (fun k =>
    { offset := k * block_size,
      length := min block_size (piece_size - k * block_size),
      state := BlockState.NotRequested })

/-- Model of PieceManager::new.  Rust's step_by panics on a zero step, so
the theorems below assume 0 < block_size; likewise tot % len panics for
len = 0, so they assume a positive piece length. -/
def PieceManager.new (torrent : Torrent) (block_size : Nat) : PieceManager :=
  let len := usize_of_int torrent.piece_length
  let tot := usize_of_int torrent.total_size
  let cnt := torrent.pieces_count
  let last_len := if tot % len = 0 then len else tot % len
  let pieces := (List.range cnt).map (fun i =>
    let piece_size := if i = cnt - 1 then last_len else len
    { index := i, blocks := blocksFor piece_size block_size })
  { pieces := pieces, len := len, last_len := last_len, block_size := block_size }

/-- Replace the element at one index, if it exists (model of
Vec::get_mut followed by a mutation through the reference). -/
def modifyIdx {α : Type} : List α → Nat → (α → α) → List α
  | [], _, _ => []
  | x :: xs, 0, f => f x :: xs
  | x :: xs, n + 1, f => x :: modifyIdx xs n f

/-- Mutate the first element satisfying the test, if any (model of
Iterator::find followed by a mutation through the reference). -/
def modifyFirst {α : Type} (p : α → Bool) (f : α → α) : List α → List α
  | [] => []
  | x :: xs => if p x then f x :: xs else x :: modifyFirst p f xs

/-- Model of PieceManager::mark_block_requested: locates piece pidx, then
the first block with offset boff, and moves it to Requested only when its
current state is NotRequested (the .filter in the Rust chain). -/
def PieceManager.mark_block_requested (m : PieceManager) (pidx boff : Nat) : PieceManager :=
  { m with pieces := modifyIdx m.pieces pidx (fun p =>
      { p with blocks := (modifyFirst (fun b => b.offset == boff)
          (fun b => if b.state = .NotRequested then { b with state := .Requested } else b)
          p.blocks) }) }

/-- Model of PieceManager::mark_block_downloaded: locates piece pidx, then
the first block with offset boff, and sets it to Downloaded; there is no
state check in the Rust chain. -/
def PieceManager.mark_block_downloaded (m : PieceManager) (pidx boff : Nat) : PieceManager :=
  { m with pieces := modifyIdx m.pieces pidx (fun p =>
      { p with blocks := (modifyFirst (fun b => b.offset == boff)
          (fun b => { b with state := BlockState.Downloaded }) p.blocks) }) }

/-- Model of PieceManager::is_piece_complete: true when piece pidx exists
and all its blocks are Downloaded, false otherwise (unwrap_or(false)). -/
def PieceManager.is_piece_complete (m : PieceManager) (pidx : Nat) : Bool :=
  ((m.pieces[pidx]?).map (fun p =>
    p.blocks.all (fun b => b.state == BlockState.Downloaded))).getD false

/-- Model of PieceManager::needed_blocks: flat map over pieces of the
(piece index, offset) pairs of the NotRequested blocks. -/
def PieceManager.needed_blocks (m : PieceManager) : List (Nat × Nat) :=
  m.pieces.flatMap (fun p =>
    (p.blocks.filter (fun b => b.state == BlockState.NotRequested)).map
      (fun b => (p.index, b.offset)))

/-- Sum of the block lengths of a piece. -/
def blockLengthSum (blocks : List Block) : Nat :=
  (blocks.map Block.length).sum

/-- Strict lexicographic order on (piece index, offset) pairs. -/
def lexLt (a b : Nat × Nat) : Prop :=
  a.1 < b.1 ∨ (a.1 = b.1 ∧ a.2 < b.2)

/-- Concrete single-piece torrent (piece length 4, one 20-byte piece hash,
single file of 4 bytes) used to exercise the piece manager. -/
def T2c : Torrent :=
  { announce := [117],
    info := { name := [120], piece_length := 4, pieces := List.replicate 20 65,
              length := some 4, files := none },
    info_raw_bytes := [] }

/-- Concrete two-piece torrent whose piece table (2 pieces) is consistent
with its total size (6 bytes at piece length 4). -/
def T6c : Torrent :=
  { announce := [117],
    info := { name := [120], piece_length := 4, pieces := List.replicate 40 65,
              length := some 6, files := none },
    info_raw_bytes := [] }

/-- Concrete two-piece torrent whose piece table (2 pieces) is inconsistent
with its total size (100 bytes at piece length 4 would need 25 pieces); the
loader accepts such torrents since it never cross-checks the two. -/
def T8c : Torrent :=
  { announce := [117],
    info := { name := [120], piece_length := 4, pieces := List.replicate 40 65,
              length := some 100, files := none },
    info_raw_bytes := [] }

/-! ### error.rs -/

/-- Model of ApplicationError from error.rs. -/
inductive ApplicationError where
  | ParserError (msg : String)
  | TrackerError (msg : String)
  | ProtocolError (msg : String)
  | PeerError (msg : String)
  | WorkerError (msg : String)
deriving DecidableEq, Repr

instance {ε α : Type} [DecidableEq ε] [DecidableEq α] : DecidableEq (Except ε α) := fun a b =>
  match a, b with
  | .ok x, .ok y =>
      if h : x = y then isTrue (by rw [h]) else isFalse (fun hh => h (Except.ok.inj hh))
  | .error x, .error y =>
      if h : x = y then isTrue (by rw [h]) else isFalse (fun hh => h (Except.error.inj hh))
  | .ok _, .error _ => isFalse (fun hh => Except.noConfusion hh)
  | .error _, .ok _ => isFalse (fun hh => Except.noConfusion hh)

/-! ### Bencode values (model of serde_bencode::value::Value)

The parser keeps dictionary entries in source order (serde_bencode's
HashMap loses order, but its serializer sorts entries by key before
writing, so the bytes it emits depend only on the map contents; lookups
below take the last binding of a key, matching HashMap insert
overwriting). -/

inductive Bencode where
  | int (n : Int)
  | bytes (s : List Nat)
  | list (xs : List Bencode)
  | dict (xs : List (List Nat × Bencode))
deriving Repr

/-- Decimal ASCII digits of a natural number, by fuel on the digit count
(any fuel above log10 suffices; the wrapper passes n + 1). -/
def nat_ascii_aux : Nat → Nat → List Nat
  | 0, _ => []
  | fuel + 1, n => if n < 10 then [48 + n] else nat_ascii_aux fuel (n / 10) ++ [48 + n % 10]

/-- Decimal ASCII digits of a natural number. -/
def nat_ascii (n : Nat) : List Nat :=
  nat_ascii_aux (n + 1) n

/-- Decimal ASCII of an integer, with a leading minus sign when negative
(Rust's i64 Display, used by serde_bencode's integer serializer). -/
def int_ascii (n : Int) : List Nat :=
  if n < 0 then 45 :: nat_ascii n.natAbs else nat_ascii n.toNat

/-- Byte-wise lexicographic order used by serde_bencode when sorting
dictionary entries (Ord on Vec of u8). -/
def bytesLe : List Nat → List Nat → Bool
  | [], _ => true
  | _ :: _, [] => false
  | a :: as', b :: bs' => if a < b then true else if b < a then false else bytesLe as' bs'

/-- Insertion into a key-sorted entry list. -/
def insertEntry (e : List Nat × Bencode) :
    List (List Nat × Bencode) → List (List Nat × Bencode)
  | [] => [e]
  | x :: xs => if bytesLe e.1 x.1 then e :: x :: xs else x :: insertEntry e xs

/-- Sort dictionary entries by key (serde_bencode sorts map entries before
emitting them). -/
def sort_entries (l : List (List Nat × Bencode)) : List (List Nat × Bencode) :=
  l.foldr insertEntry []

mutual

/-- Sort every dictionary inside a value by key, the canonical form in
which serde_bencode serializes maps. -/
def sort_deep : Bencode → Bencode
  | .int n => .int n
  | .bytes s => .bytes s
  | .list xs => .list (sort_deep_list xs)
  | .dict xs => .dict (sort_entries (sort_deep_entries xs))

def sort_deep_list : List Bencode → List Bencode
  | [] => []
  | x :: xs => sort_deep x :: sort_deep_list xs

def sort_deep_entries : List (List Nat × Bencode) → List (List Nat × Bencode)
  | [] => []
  | (k, v) :: xs => (k, sort_deep v) :: sort_deep_entries xs

end

mutual

/-- Plain bencode encoding of a value: i...e integers, length:bytes
strings, l...e lists, d...e dictionaries with entries in list order. -/
def encode_val : Bencode → List Nat
  | .int n => 105 :: int_ascii n ++ [101]
  | .bytes s => nat_ascii s.length ++ 58 :: s
  | .list xs => 108 :: encode_items xs ++ [101]
  | .dict xs => 100 :: encode_entries xs ++ [101]

def encode_items : List Bencode → List Nat
  | [] => []
  | x :: xs => encode_val x ++ encode_items xs

def encode_entries : List (List Nat × Bencode) → List Nat
  | [] => []
  | (k, v) :: xs => (nat_ascii k.length ++ 58 :: k) ++ encode_val v ++ encode_entries xs

end

/-- Collapse duplicate dictionary keys to their last binding.  A
Value::Dict is a HashMap built by successive inserts while serde_bencode
deserializes, so an earlier binding of a repeated key disappears.  The
surviving entry of each key carries the last value; the relative order of
the survivors is irrelevant because serialization sorts by key. -/
def dedup_entries : List (List Nat × Bencode) → List (List Nat × Bencode)
  | [] => []
  | (k, v) :: rest =>
      if (rest.map Prod.fst).contains k then dedup_entries rest
      else (k, v) :: dedup_entries rest

mutual

/-- Deep HashMap collapse: serde_bencode's Value stores every nested
dictionary as a HashMap, so duplicate keys vanish (last binding wins) at
every level when a Value is built from bytes. -/
def dedup_deep : Bencode → Bencode
  | .int n => .int n
  | .bytes s => .bytes s
  | .list xs => .list (dedup_deep_list xs)
  | .dict xs => .dict (dedup_entries (dedup_deep_entries xs))

def dedup_deep_list : List Bencode → List Bencode
  | [] => []
  | x :: xs => dedup_deep x :: dedup_deep_list xs

def dedup_deep_entries : List (List Nat × Bencode) → List (List Nat × Bencode)
  | [] => []
  | (k, v) :: xs => (k, dedup_deep v) :: dedup_deep_entries xs

end

/-- Model of serde_bencode::to_bytes applied to a Value that was itself
deserialized from bytes (the only way torrent.rs builds one): every
dictionary has collapsed its duplicate keys into the last binding while
the HashMap was filled, and is emitted with its surviving entries sorted
by key. -/
def bencode_to_bytes (v : Bencode) : List Nat :=
  encode_val (sort_deep (dedup_deep v))

/-- ASCII decimal digit test. -/
def is_digit (c : Nat) : Bool :=
  48 ≤ c && c ≤ 57

/-- Consume leading decimal digits, accumulating their value (the lenient
digit reader of serde_bencode, which accepts leading zeroes). -/
def read_digits : List Nat → Nat → Nat × List Nat
  | [], acc => (acc, [])
  | c :: rest, acc =>
      if is_digit c then read_digits rest (acc * 10 + (c - 48)) else (acc, c :: rest)

/-- Read a decimal number: at least one digit. -/
def parse_nat (l : List Nat) : Option (Nat × List Nat) :=
  match l with
  | c :: rest => if is_digit c then some (read_digits rest (c - 48)) else none
  | [] => none

/-- Read a length-prefixed byte string: digits, a colon, then that many
bytes; fails when the buffer is too short. -/
def parse_str (l : List Nat) : Option (List Nat × List Nat) :=
  match parse_nat l with
  | some (n, 58 :: rest) =>
      if n ≤ rest.length then some (rest.take n, rest.drop n) else none
  | _ => none

/-- Read the body of an integer after the opening i: optional minus sign,
digits, then the closing e. -/
def parse_int_body (l : List Nat) : Option (Int × List Nat) :=
  match l with
  | 45 :: rest =>
      match parse_nat rest with
      | some (n, 101 :: rest2) => some (-(n : Int), rest2)
      | _ => none
  | _ =>
      match parse_nat l with
      | some (n, 101 :: rest2) => some ((n : Int), rest2)
      | _ => none

mutual

/-- Fueled bencode parser for one value; fuel bounds the nesting depth and
any fuel of at least the input length suffices.  Mirrors serde_bencode's
deserializer: i → integer, l → list, d → dictionary, digit → byte string. -/
def parse_val : Nat → List Nat → Option (Bencode × List Nat)
  | 0, _ => none
  | fuel + 1, l =>
      match l with
      | [] => none
      | c :: rest =>
          if c = 105 then (parse_int_body rest).map (fun p => (Bencode.int p.1, p.2))
          else if c = 108 then (parse_items fuel rest).map (fun p => (Bencode.list p.1, p.2))
          else if c = 100 then (parse_entries fuel rest).map (fun p => (Bencode.dict p.1, p.2))
          else (parse_str (c :: rest)).map (fun p => (Bencode.bytes p.1, p.2))

/-- List items until the closing e. -/
def parse_items : Nat → List Nat → Option (List Bencode × List Nat)
  | 0, _ => none
  | fuel + 1, l =>
      match l with
      | [] => none
      | c :: rest =>
          if c = 101 then some ([], rest)
          else
            (parse_val fuel (c :: rest)).bind (fun vr =>
              (parse_items fuel vr.2).map (fun xsr => (vr.1 :: xsr.1, xsr.2)))

/-- Dictionary entries (key string then value) until the closing e, kept
in source order. -/
def parse_entries : Nat → List Nat → Option (List (List Nat × Bencode) × List Nat)
  | 0, _ => none
  | fuel + 1, l =>
      match l with
      | [] => none
      | c :: rest =>
          if c = 101 then some ([], rest)
          else
            (parse_str (c :: rest)).bind (fun kr =>
              (parse_val fuel kr.2).bind (fun vr =>
                (parse_entries fuel vr.2).map (fun xsr => ((kr.1, vr.1) :: xsr.1, xsr.2))))

end

/-- Last binding of a key in an entry list: HashMap/BTreeMap inserts
overwrite, so a repeated key ends up with its last value. -/
def lookup_last (k : List Nat) : List (List Nat × Bencode) → Option Bencode
  | [] => none
  | (k', v) :: rest =>
      match lookup_last k rest with
      | some v' => some v'
      | none => if k' = k then some v else none

/-! ### SHA-1 (model of the sha1 crate, RFC 3174) -/

/-- Left rotation of a 32-bit word. -/
def rotl32 (k x : Nat) : Nat :=
  ((x <<< k) ||| (x >>> (32 - k))) % 2 ^ 32

/-- The SHA-1 round function, by round index. -/
def sha1_f (i b c d : Nat) : Nat :=
  if i < 20 then (b &&& c) ||| ((b ^^^ 4294967295) &&& d)
  else if i < 40 then (b ^^^ c) ^^^ d
  else if i < 60 then ((b &&& c) ||| (b &&& d)) ||| (c &&& d)
  else (b ^^^ c) ^^^ d

/-- The SHA-1 round constants, by round index. -/
def sha1_k (i : Nat) : Nat :=
  if i < 20 then 0x5A827999
  else if i < 40 then 0x6ED9EBA1
  else if i < 60 then 0x8F1BBCDC
  else 0xCA62C1D6

/-- Split into 64-byte chunks (fuel = list length suffices since every
step consumes at least one element). -/
def chunks64_aux : Nat → List Nat → List (List Nat)
  | 0, _ => []
  | _ + 1, [] => []
  | fuel + 1, x :: xs => ((x :: xs).take 64) :: chunks64_aux fuel ((x :: xs).drop 64)

/-- Split a padded message into 64-byte chunks. -/
def chunks64 (l : List Nat) : List (List Nat) :=
  chunks64_aux l.length l

/-- The 16 initial 32-bit big-endian words of a 64-byte chunk. -/
def sha1_w16 (chunk : List Nat) : List Nat :=
  (List.range 16).map (fun i =>
    chunk.getD (4 * i) 0 * 2 ^ 24 + chunk.getD (4 * i + 1) 0 * 2 ^ 16 +
      chunk.getD (4 * i + 2) 0 * 2 ^ 8 + chunk.getD (4 * i + 3) 0)

/-- Extend 16 schedule words to 80. -/
def sha1_extend (w : List Nat) : List Nat :=
  (List.range 64).foldl (fun ws _ =>
    ws ++ [rotl32 1 (((ws.getD (ws.length - 3) 0) ^^^ (ws.getD (ws.length - 8) 0)) ^^^
      ((ws.getD (ws.length - 14) 0) ^^^ (ws.getD (ws.length - 16) 0)))]) w

/-- Compress one 64-byte chunk into the running state. -/
def sha1_compress (h : Nat × Nat × Nat × Nat × Nat) (chunk : List Nat) :
    Nat × Nat × Nat × Nat × Nat :=
  let ws := sha1_extend (sha1_w16 chunk)
  let st := ws.enum.foldl (fun st iw =>
    let a := st.1
    let b := st.2.1
    let c := st.2.2.1
    let d := st.2.2.2.1
    let e := st.2.2.2.2
    let t := (rotl32 5 a + sha1_f iw.1 b c d + e + sha1_k iw.1 + iw.2) % 2 ^ 32
    (t, a, rotl32 30 b, c, d)) h
  ((h.1 + st.1) % 2 ^ 32, (h.2.1 + st.2.1) % 2 ^ 32, (h.2.2.1 + st.2.2.1) % 2 ^ 32,
   (h.2.2.2.1 + st.2.2.2.1) % 2 ^ 32, (h.2.2.2.2 + st.2.2.2.2) % 2 ^ 32)

/-- Merkle–Damgård padding: 0x80, zeroes to 56 mod 64, then the bit length
as a 64-bit big-endian integer. -/
def sha1_pad (msg : List Nat) : List Nat :=
  msg ++ 128 :: List.replicate ((64 - ((msg.length + 9) % 64)) % 64) 0 ++
    u64be (8 * msg.length)

/-- SHA-1 digest of a byte list, as 20 bytes. -/
def sha1 (msg : List Nat) : List Nat :=
  let h := (chunks64 (sha1_pad msg)).foldl sha1_compress
    (0x67452301, 0xEFCDAB89, 0x98BADCFE, 0x10325476, 0xC3D2E1F0)
  u32be h.1 ++ u32be h.2.1 ++ u32be h.2.2.1 ++ u32be h.2.2.2.1 ++ u32be h.2.2.2.2

/-! ### torrent.rs: from_file and info_hash -/

def announce_key : List Nat := [97, 110, 110, 111, 117, 110, 99, 101]

def info_key : List Nat := [105, 110, 102, 111]

def name_key : List Nat := [110, 97, 109, 101]

def piece_length_key : List Nat := [112, 105, 101, 99, 101, 32, 108, 101, 110, 103, 116, 104]

def pieces_key : List Nat := [112, 105, 101, 99, 101, 115]

def length_key : List Nat := [108, 101, 110, 103, 116, 104]

def files_key : List Nat := [102, 105, 108, 101, 115]

def path_key : List Nat := [112, 97, 116, 104]

/-- Accumulator of the derived TorrentFile deserializer. -/
structure FileAcc where
  length : Option Int
  path : Option (List (List Nat))

/-- Field loop of serde's derived Deserialize for TorrentFile: dictionary
entries are visited in source order; a repeated known field is a
duplicate_field error, an ill-typed value is an error, an unknown field is
ignored (even when itself repeated). -/
def deser_file_fields : List (List Nat × Bencode) → FileAcc → Option FileAcc
  | [], acc => some acc
  | (k, v) :: rest, acc =>
      if k = length_key then
        match acc.length, v with
        | none, .int n => deser_file_fields rest { acc with length := some n }
        | _, _ => none
      else if k = path_key then
        match acc.path, v with
        | none, .list ps =>
            match ps.mapM (fun p => match p with
              | Bencode.bytes s => some s
              | _ => (none : Option (List Nat))) with
            | some segs => deser_file_fields rest { acc with path := some segs }
            | none => none
        | _, _ => none
      else deser_file_fields rest acc

/-- Derived Deserialize for TorrentFile: a dictionary with a required
integer length and a required path list of byte strings. -/
def deser_file : Bencode → Option TorrentFile
  | .dict d =>
      match deser_file_fields d { length := none, path := none } with
      | some acc =>
          match acc.length, acc.path with
          | some n, some segs => some { length := n, path := segs }
          | _, _ => none
      | none => none
  | _ => none

/-- Deserialization of the files list of a multi-file torrent. -/
def parse_torrent_files (items : List Bencode) : Option (List TorrentFile) :=
  items.mapM deser_file

/-- Accumulator of the derived Info deserializer. -/
structure InfoAcc where
  name : Option (List Nat)
  piece_length : Option Int
  pieces : Option (List Nat)
  length : Option (Option Int)
  files : Option (Option (List TorrentFile))

/-- Field loop of serde's derived Deserialize for Info: entries in source
order; a repeated known field (optional ones included) is a
duplicate_field error, an ill-typed value is an error, an unknown field is
ignored. -/
def deser_info_fields : List (List Nat × Bencode) → InfoAcc → Option InfoAcc
  | [], acc => some acc
  | (k, v) :: rest, acc =>
      if k = name_key then
        match acc.name, v with
        | none, .bytes s => deser_info_fields rest { acc with name := some s }
        | _, _ => none
      else if k = piece_length_key then
        match acc.piece_length, v with
        | none, .int n => deser_info_fields rest { acc with piece_length := some n }
        | _, _ => none
      else if k = pieces_key then
        match acc.pieces, v with
        | none, .bytes s => deser_info_fields rest { acc with pieces := some s }
        | _, _ => none
      else if k = length_key then
        match acc.length, v with
        | none, .int n => deser_info_fields rest { acc with length := some (some n) }
        | _, _ => none
      else if k = files_key then
        match acc.files, v with
        | none, .list items =>
            match parse_torrent_files items with
            | some fs => deser_info_fields rest { acc with files := some (some fs) }
            | none => none
        | _, _ => none
      else deser_info_fields rest acc

/-- Derived Deserialize for Info: name, piece length and pieces are
required (missing_field error otherwise); length and files are Option
fields that default to None when absent. -/
def deser_info : Bencode → Option Info
  | .dict ie =>
      match deser_info_fields ie { name := none, piece_length := none,
                                   pieces := none, length := none, files := none } with
      | some acc =>
          match acc.name, acc.piece_length, acc.pieces with
          | some nm, some pl, some pcs =>
              some { name := nm, piece_length := pl, pieces := pcs,
                     length := acc.length.getD none, files := acc.files.getD none }
          | _, _, _ => none
      | none => none
  | _ => none

/-- Accumulator of the derived Torrent deserializer. -/
structure TorrentAcc where
  announce : Option (List Nat)
  info : Option Info

/-- Field loop of the derived Deserialize for Torrent: announce and info
are known fields; info_raw_bytes is serde(skip), so that key — like any
unknown key — is ignored. -/
def deser_torrent_fields : List (List Nat × Bencode) → TorrentAcc → Option TorrentAcc
  | [], acc => some acc
  | (k, v) :: rest, acc =>
      if k = announce_key then
        match acc.announce, v with
        | none, .bytes s => deser_torrent_fields rest { acc with announce := some s }
        | _, _ => none
      else if k = info_key then
        match acc.info with
        | none =>
            match deser_info v with
            | some i => deser_torrent_fields rest { acc with info := some i }
            | none => none
        | some _ => none
      else deser_torrent_fields rest acc

/-- Model of Torrent::from_file on the bytes read from disk.  The Rust
code (1) deserializes the whole file into BTreeMap of String to Value
(serde errors become TrackerError; duplicate keys of the outer map and of
every nested Value dictionary collapse to their last binding, because the
containers are maps), (2) takes the info value from the map, failing with
the ParserError "missing info" when absent, (3) re-encodes that
deduplicated value with serde_bencode::to_bytes into info_raw_bytes, and
(4) runs the derived typed deserializer for Torrent over the same bytes
(entries in source order; missing, ill-typed or duplicated known fields
are serde errors, again TrackerError).  There is no check whatsoever on
the length of pieces. -/
def Torrent.from_file (data : List Nat) : Except ApplicationError Torrent :=
  match parse_val (data.length + 1) data with
  | some (.dict entries, _) =>
      match lookup_last info_key entries with
      | none => .error (.ParserError "missing info")
      | some info_val =>
          let info_raw_bytes := bencode_to_bytes info_val
          match deser_torrent_fields entries { announce := none, info := none } with
          | some acc =>
              match acc.announce, acc.info with
              | some a, some i =>
                  .ok { announce := a, info := i, info_raw_bytes := info_raw_bytes }
              | _, _ => .error (.TrackerError "missing torrent field")
          | none => .error (.TrackerError "invalid torrent field")
  | some _ => .error (.TrackerError "torrent file is not a dictionary")
  | none => .error (.TrackerError "malformed bencode")

/-- Model of Torrent::info_hash: SHA-1 of info_raw_bytes. -/
def Torrent.info_hash (t : Torrent) : List Nat :=
  sha1 t.info_raw_bytes

/-- Walk the entries of a dictionary body and return the raw byte range of
the value of the (last) info key — the consumed bytes of that value's
parse. -/
def info_slice_core : Nat → List Nat → Option (List Nat)
  | 0, _ => none
  | fuel + 1, l =>
      match l with
      | [] => none
      | c :: rest =>
          if c = 101 then none
          else
            (parse_str (c :: rest)).bind (fun kr =>
              (parse_val fuel kr.2).bind (fun vr =>
                match info_slice_core fuel vr.2 with
                | some s => some s
                | none =>
                    if kr.1 = info_key then
                      some (kr.2.take (kr.2.length - vr.2.length))
                    else none))

/-- The exact bencoded bytes of the info sub-dictionary as they appear in
the source file: the substring from the d opening the info value to its
matching e.  Stated from the spec's words, to compare against the
re-encoding that the code hashes. -/
def info_slice (data : List Nat) : Option (List Nat) :=
  match data with
  | 100 :: body => info_slice_core data.length body
  | _ => none

/-- A torrent file whose info dictionary is canonically encoded (keys
name, piece length, pieces in sorted order):
d8:announce1:u4:infod4:name0:12:piece lengthi1e6:pieces0:ee. -/
def dataC : List Nat :=
  [100, 56, 58, 97, 110, 110, 111, 117, 110, 99, 101, 49, 58, 117,
   52, 58, 105, 110, 102, 111,
   100, 52, 58, 110, 97, 109, 101, 48, 58,
   49, 50, 58, 112, 105, 101, 99, 101, 32, 108, 101, 110, 103, 116, 104,
   105, 49, 101,
   54, 58, 112, 105, 101, 99, 101, 115, 48, 58,
   101, 101]

/-- The source byte range of dataC's info value:
d4:name0:12:piece lengthi1e6:pieces0:e. -/
def sliceC : List Nat :=
  [100, 52, 58, 110, 97, 109, 101, 48, 58,
   49, 50, 58, 112, 105, 101, 99, 101, 32, 108, 101, 110, 103, 116, 104,
   105, 49, 101,
   54, 58, 112, 105, 101, 99, 101, 115, 48, 58,
   101]

/-- A torrent file whose info dictionary keys appear in NON-sorted source
order (pieces, name, piece length):
d8:announce1:u4:infod6:pieces0:4:name0:12:piece lengthi1eee. -/
def dataNC : List Nat :=
  [100, 56, 58, 97, 110, 110, 111, 117, 110, 99, 101, 49, 58, 117,
   52, 58, 105, 110, 102, 111,
   100, 54, 58, 112, 105, 101, 99, 101, 115, 48, 58,
   52, 58, 110, 97, 109, 101, 48, 58,
   49, 50, 58, 112, 105, 101, 99, 101, 32, 108, 101, 110, 103, 116, 104,
   105, 49, 101,
   101, 101]

/-- The source byte range of dataNC's info value:
d6:pieces0:4:name0:12:piece lengthi1ee. -/
def sliceNC : List Nat :=
  [100, 54, 58, 112, 105, 101, 99, 101, 115, 48, 58,
   52, 58, 110, 97, 109, 101, 48, 58,
   49, 50, 58, 112, 105, 101, 99, 101, 32, 108, 101, 110, 103, 116, 104,
   105, 49, 101,
   101]

/-! ### A family of torrent files with pieces of arbitrary length -/

/-- A torrent file whose info dictionary contains a duplicate unknown key
(two 3:zzz entries, in sorted position):
d8:announce1:u4:infod4:name0:12:piece lengthi1e6:pieces0:3:zzz0:3:zzz0:ee. -/
def dataDup : List Nat :=
  [100, 56, 58, 97, 110, 110, 111, 117, 110, 99, 101, 49, 58, 117,
   52, 58, 105, 110, 102, 111,
   100, 52, 58, 110, 97, 109, 101, 48, 58,
   49, 50, 58, 112, 105, 101, 99, 101, 32, 108, 101, 110, 103, 116, 104,
   105, 49, 101,
   54, 58, 112, 105, 101, 99, 101, 115, 48, 58,
   51, 58, 122, 122, 122, 48, 58,
   51, 58, 122, 122, 122, 48, 58,
   101, 101]

/-- The source byte range of dataDup's info value (both zzz entries). -/
def sliceDup : List Nat :=
  [100, 52, 58, 110, 97, 109, 101, 48, 58,
   49, 50, 58, 112, 105, 101, 99, 101, 32, 108, 101, 110, 103, 116, 104,
   105, 49, 101,
   54, 58, 112, 105, 101, 99, 101, 115, 48, 58,
   51, 58, 122, 122, 122, 48, 58,
   51, 58, 122, 122, 122, 48, 58,
   101]

/-- A torrent file whose info dictionary repeats the known field name:
d8:announce1:u4:infod4:name0:4:name0:12:piece lengthi1e6:pieces0:ee. -/
def dataDupKnown : List Nat :=
  [100, 56, 58, 97, 110, 110, 111, 117, 110, 99, 101, 49, 58, 117,
   52, 58, 105, 110, 102, 111,
   100, 52, 58, 110, 97, 109, 101, 48, 58,
   52, 58, 110, 97, 109, 101, 48, 58,
   49, 50, 58, 112, 105, 101, 99, 101, 32, 108, 101, 110, 103, 116, 104,
   105, 49, 101,
   54, 58, 112, 105, 101, 99, 101, 115, 48, 58,
   101, 101]

/-- Bencoded torrent file with announce "u" and an info dictionary with
empty name, piece length 1 and the given pieces byte string:
d8:announce1:u4:infod4:name0:12:piece lengthi1e6:pieces[N]:[pieces]ee. -/
def mk_torrent_bytes (pieces : List Nat) : List Nat :=
  [100, 56, 58, 97, 110, 110, 111, 117, 110, 99, 101, 49, 58, 117,
   52, 58, 105, 110, 102, 111,
   100, 52, 58, 110, 97, 109, 101, 48, 58,
   49, 50, 58, 112, 105, 101, 99, 101, 32, 108, 101, 110, 103, 116, 104,
   105, 49, 101,
   54, 58, 112, 105, 101, 99, 101, 115] ++
    nat_ascii pieces.length ++ 58 :: (pieces ++ [101, 101])

/-! ### tracker.rs -/

/-- Model of std::net::IpAddr as used here: tracker.rs only ever builds
V4 addresses. -/
inductive IpAddr where
  | V4 (a b c d : Nat)
deriving DecidableEq, Repr

/-- Model of Peer from peer.rs. -/
structure Peer where
  ip : IpAddr
  port : Nat
deriving DecidableEq, Repr

/-- Model of AnnounceResponse from tracker.rs. -/
structure AnnounceResponse where
  peers_data : Bencode
  interval : Option Int

/-- The compact-format loop of AnnounceResponse::peers: data.chunks(6)
with the len == 6 guard keeps exactly the full 6-byte groups, reading a
4-byte IPv4 address and a big-endian 2-byte port from each. -/
def compact_peers : List Nat → List Peer
  | a :: b :: c :: d :: p1 :: p2 :: rest =>
      { ip := IpAddr.V4 a b c d, port := p1 * 256 + p2 } :: compact_peers rest
  | _ => []

/-- Digit-fold value of an ASCII digit string. -/
def digits_val (s : List Nat) : Nat :=
  s.foldl (fun a c => a * 10 + (c - 48)) 0

/-- One dotted-quad octet: 1–3 decimal digits, no leading zero unless the
octet is exactly 0, value at most 255 (Rust's Ipv4Addr FromStr). -/
def octet_valid (s : List Nat) : Bool :=
  (1 ≤ s.length && s.length ≤ 3) && s.all is_digit &&
    (s.length == 1 || s.headD 0 != 48) && digits_val s ≤ 255

/-- Model of str::parse for Ipv4Addr on a byte string: four dot-separated
valid octets. -/
def parse_ipv4 (s : List Nat) : Option IpAddr :=
  match List.splitOn 46 s with
  | [a, b, c, d] =>
      if octet_valid a && octet_valid b && octet_valid c && octet_valid d then
        some (IpAddr.V4 (digits_val a) (digits_val b) (digits_val c) (digits_val d))
      else none
  | _ => none

/-- Rust's i64 → u16 cast: two's-complement truncation to 16 bits. -/
def u16_of_int (n : Int) : Nat :=
  (n % (2 ^ 16 : Int)).toNat

/-- One entry of the non-compact peer list: a dictionary with an ip byte
string (dotted quad) and an integer port, cast to u16. -/
def dict_peer (d : List (List Nat × Bencode)) : Option Peer :=
  let ip := match lookup_last [105, 112] d with
    | some (.bytes b) => parse_ipv4 b
    | _ => none
  let port := match lookup_last [112, 111, 114, 116] d with
    | some (.int n) => some (u16_of_int n)
    | _ => none
  match ip, port with
  | some ip, some port => some { ip := ip, port := port }
  | _, _ => none

/-- Model of AnnounceResponse::peers: compact byte-string format, list of
dictionaries format, and an empty roster for anything else. -/
def AnnounceResponse.peers (r : AnnounceResponse) : List Peer :=
  match r.peers_data with
  | .bytes data => compact_peers data
  | .list items => items.filterMap (fun it =>
      match it with
      | .dict d => dict_peer d
      | _ => none)
  | _ => []

/-! ### peer.rs: the Bitfield arm of read_messages -/

/-- Test of bit `bit` (MSB first) of a byte, as the Rust arm computes
byte & (0b1000_0000 >> bit). -/
def bit_set (byte bit : Nat) : Bool :=
  byte &&& (128 >>> bit) != 0

/-- Model of the Bitfield arm of PeerConnection::read_messages: for every
byte i of the payload and every bit 0..8, when the bit is set the index
i * 8 + bit is inserted into available_pieces.  There is no range check of
any kind. -/
def apply_bitfield (avail : Finset Nat) (bytes : List Nat) : Finset Nat :=
  bytes.enum.foldl (fun acc ib =>
    (List.range 8).foldl (fun acc2 bit =>
      if bit_set ib.2 bit then insert (ib.1 * 8 + bit) acc2 else acc2) acc) avail

/-! ### protocol.rs: handshake -/

/-- ASCII bytes of the protocol identifier string "BitTorrent protocol". -/
def PROTOCOL_STR_BYTES : List Nat :=
  [66, 105, 116, 84, 111, 114, 114, 101, 110, 116, 32,
   112, 114, 111, 116, 111, 99, 111, 108]

/-- Length of the full handshake message (always 68 bytes). -/
def HANDSHAKE_LEN : Nat := 68

/-- Model of protocol.rs Handshake: the two 20-byte fields. -/
structure Handshake where
  info_hash : List Nat
  peer_id : List Nat
deriving DecidableEq, Repr

/-- Model of Handshake::encode: the 68-byte array written as
byte 0 = 19, bytes 1..20 the protocol string, bytes 20..28 the reserved
zeroes, bytes 28..48 the info-hash and bytes 48..68 the peer-id. -/
def Handshake.encode (h : Handshake) : List Nat :=
  19 :: PROTOCOL_STR_BYTES ++ List.replicate 8 0 ++ h.info_hash ++ h.peer_id

/-- Model of Handshake::decode: checks the total length, the protocol
string length byte and the protocol string itself, then extracts the
info-hash from bytes 28..48 and the peer-id from bytes 48..68. -/
def Handshake.decode (buf : List Nat) : Except ApplicationError Handshake :=
  if buf.length ≠ HANDSHAKE_LEN then
    .error (.ParserError "invalid handshake length")
  else if buf.headD 0 ≠ PROTOCOL_STR_BYTES.length then
    .error (.ParserError "invalid protocol string length")
  else if (buf.drop 1).take PROTOCOL_STR_BYTES.length ≠ PROTOCOL_STR_BYTES then
    .error (.ParserError "invalid protocol string")
  else
    .ok { info_hash := (buf.drop 28).take 20, peer_id := (buf.drop 48).take 20 }

/-! ### protocol.rs: messages -/

/-- Model of protocol.rs Message.  The u32 fields of the Rust enum become
naturals; payload byte buffers become lists. -/
inductive Message where
  | Choke
  | Unchoke
  | Interested
  | NotInterested
  | Have (index : Nat)
  | Bitfield (bitfield : List Nat)
  | Request (index begin_ length : Nat)
  | Piece (index begin_ : Nat) (block : List Nat)
  | Cancel (index begin_ length : Nat)
deriving DecidableEq, Repr

/-- Ranges guaranteed by the Rust types: u32 fields fit in 32 bits and the
length-prefix computations (1 + bitfield.len(), 9 + block.len()) do not
wrap when cast to u32. -/
def MessageWF : Message → Prop
  | .Have index => index < 2 ^ 32
  | .Bitfield bitfield => 1 + bitfield.length < 2 ^ 32
  | .Request index begin_ length =>
      index < 2 ^ 32 ∧ begin_ < 2 ^ 32 ∧ length < 2 ^ 32
  | .Piece index begin_ block =>
      index < 2 ^ 32 ∧ begin_ < 2 ^ 32 ∧ 9 + block.length < 2 ^ 32
  | .Cancel index begin_ length =>
      index < 2 ^ 32 ∧ begin_ < 2 ^ 32 ∧ length < 2 ^ 32
  | _ => True

instance (m : Message) : Decidable (MessageWF m) := by
  cases m <;> simp only [MessageWF] <;> infer_instance

/-- Model of Message::encode: a 4-byte big-endian length prefix, a one-byte
message id and the payload. -/
def Message.encode : Message → List Nat
  | .Choke => u32be 1 ++ [0]
  | .Unchoke => u32be 1 ++ [1]
  | .Interested => u32be 1 ++ [2]
  | .NotInterested => u32be 1 ++ [3]
  | .Have index => u32be 5 ++ 4 :: u32be index
  | .Bitfield bitfield => u32be (1 + bitfield.length) ++ 5 :: bitfield
  | .Request index begin_ length =>
      u32be 13 ++ 6 :: (u32be index ++ u32be begin_ ++ u32be length)
  | .Piece index begin_ block =>
      u32be (9 + block.length) ++ 7 :: (u32be index ++ u32be begin_ ++ block)
  | .Cancel index begin_ length =>
      u32be 13 ++ 8 :: (u32be index ++ u32be begin_ ++ u32be length)

/-- Model of Message::decode: reads the length prefix, answers a keep-alive
for length 0, checks that the announced length is available, then parses by
message id exactly as the Rust match does. -/
def Message.decode (buf : List Nat) : Except ApplicationError (Option Message) :=
  if buf.length < 4 then
    .error (.ParserError "buffer too short to read length")
  else
    match readU32 buf with
    | none => .error (.ParserError "protocol: length read")
    | some (len, rest) =>
      if len = 0 then
        .ok none
      else if rest.length < len then
        .error (.ParserError "incomplete message data")
      else
        match rest with
        | [] => .error (.ParserError "protocol: id read")
        | id :: payload =>
          let payload_len := len - 1
          if id = 0 then .ok (some .Choke)
          else if id = 1 then .ok (some .Unchoke)
          else if id = 2 then .ok (some .Interested)
          else if id = 3 then .ok (some .NotInterested)
          else if id = 4 then
            if payload_len ≠ 4 then
              .error (.ParserError "invalid have message length")
            else
              match readU32 payload with
              | none => .error (.ParserError "protocol: have read")
              | some (index, _) => .ok (some (.Have index))
          else if id = 5 then
            if payload.length < payload_len then
              .error (.ParserError "protocol: bitfield read")
            else
              .ok (some (.Bitfield (payload.take payload_len)))
          else if id = 6 then
            if payload_len ≠ 12 then
              .error (.ParserError "invalid request message length")
            else
              match readU32 payload with
              | none => .error (.ParserError "protocol: request read")
              | some (index, rest1) =>
                match readU32 rest1 with
                | none => .error (.ParserError "protocol: request read")
                | some (begin_, rest2) =>
                  match readU32 rest2 with
                  | none => .error (.ParserError "protocol: request read")
                  | some (length, _) => .ok (some (.Request index begin_ length))
          else if id = 7 then
            if payload_len < 8 then
              .error (.ParserError "invalid piece message length")
            else
              match readU32 payload with
              | none => .error (.ParserError "protocol: piece read")
              | some (index, rest1) =>
                match readU32 rest1 with
                | none => .error (.ParserError "protocol: piece read")
                | some (begin_, rest2) =>
                  let block_len := payload_len - 8
                  if rest2.length < block_len then
                    .error (.ParserError "failed to read piece block")
                  else
                    .ok (some (.Piece index begin_ (rest2.take block_len)))
          else if id = 8 then
            if payload_len ≠ 12 then
              .error (.ParserError "invalid cancel message length")
            else
              match readU32 payload with
              | none => .error (.ParserError "protocol: cancel read")
              | some (index, rest1) =>
                match readU32 rest1 with
                | none => .error (.ParserError "protocol: cancel read")
                | some (begin_, rest2) =>
                  match readU32 rest2 with
                  | none => .error (.ParserError "protocol: cancel read")
                  | some (length, _) => .ok (some (.Cancel index begin_ length))
          else .error (.ParserError "unknown message id")

theorem u32be_length (n : Nat) : (u32be n).length = 4 := rfl

theorem readU32_u32be (n : Nat) (r : List Nat) :
    readU32 (u32be n ++ r) = some (n % 2 ^ 32, r) := by
  simp only [u32be, readU32, List.cons_append, List.nil_append]
  have h : n / 2 ^ 24 % 256 * 2 ^ 24 + n / 2 ^ 16 % 256 * 2 ^ 16 +
      n / 2 ^ 8 % 256 * 2 ^ 8 + n % 256 = n % 2 ^ 32 := by omega
  rw [h]

theorem readU32_u32be_nil (n : Nat) : readU32 (u32be n) = some (n % 2 ^ 32, []) := by
  have h := readU32_u32be n []
  simpa using h

/-- C3: for every Message variant with in-range payloads, decode of encode
returns Ok(Some(m)); the 4-byte big-endian length prefix written by encode
equals 1 plus the payload length for every typed message (the payload being
everything after the 5 prefix-and-id bytes), and a frame with length prefix
0 (keep-alive) decodes to Ok(None). -/
theorem message_codec_round_trip :
    (∀ m : Message, MessageWF m →
        Message.decode (Message.encode m) = .ok (some m) ∧
        (Message.encode m).take 4 = u32be (1 + ((Message.encode m).length - 5)))
    ∧ ∀ rest : List Nat, Message.decode (0 :: 0 :: 0 :: 0 :: rest) = .ok none := by
  constructor
  · intro m hwf
    cases m with
    | Choke => exact ⟨by decide, by decide⟩
    | Unchoke => exact ⟨by decide, by decide⟩
    | Interested => exact ⟨by decide, by decide⟩
    | NotInterested => exact ⟨by decide, by decide⟩
    | Have index =>
        simp only [MessageWF] at hwf
        have hm : index % 2 ^ 32 = index := Nat.mod_eq_of_lt hwf
        constructor
        · simp only [Message.encode, Message.decode, readU32_u32be,
            readU32_u32be_nil, List.length_append, List.length_cons,
            u32be_length, hm]
          norm_num
        · exact List.take_left' (u32be_length _)
    | Bitfield bitfield =>
        simp only [MessageWF] at hwf
        have hm : (1 + bitfield.length) % 2 ^ 32 = 1 + bitfield.length :=
          Nat.mod_eq_of_lt hwf
        constructor
        · simp only [Message.encode, Message.decode, readU32_u32be,
            List.length_append, List.length_cons, u32be_length, hm]
          norm_num [List.take_length]
          intro h
          exact absurd h (by omega)
        · have hlen : 1 + ((Message.encode (.Bitfield bitfield)).length - 5) =
              1 + bitfield.length := by
            simp only [Message.encode, List.length_append, List.length_cons,
              u32be_length]
            omega
          rw [hlen]
          exact List.take_left' (u32be_length _)
    | Request index begin_ length =>
        simp only [MessageWF] at hwf
        have hm1 : index % 2 ^ 32 = index := Nat.mod_eq_of_lt hwf.1
        have hm2 : begin_ % 2 ^ 32 = begin_ := Nat.mod_eq_of_lt hwf.2.1
        have hm3 : length % 2 ^ 32 = length := Nat.mod_eq_of_lt hwf.2.2
        constructor
        · simp only [Message.encode, Message.decode, List.append_assoc,
            readU32_u32be, readU32_u32be_nil, List.length_append,
            List.length_cons, u32be_length, hm1, hm2, hm3]
          norm_num
        · exact List.take_left' (u32be_length _)
    | Piece index begin_ block =>
        simp only [MessageWF] at hwf
        have hm1 : index % 2 ^ 32 = index := Nat.mod_eq_of_lt hwf.1
        have hm2 : begin_ % 2 ^ 32 = begin_ := Nat.mod_eq_of_lt hwf.2.1
        have hm9 : (9 + block.length) % 2 ^ 32 = 9 + block.length :=
          Nat.mod_eq_of_lt hwf.2.2
        have e9 : 9 + block.length - 1 - 8 = block.length := by omega
        constructor
        · simp only [Message.encode, Message.decode, List.append_assoc,
            readU32_u32be, readU32_u32be_nil, List.length_append,
            List.length_cons, u32be_length, hm1, hm2, hm9, e9, List.take_length]
          norm_num [List.take_length]
          intro h
          exact absurd h (by omega)
        · have hlen : 1 + ((Message.encode (.Piece index begin_ block)).length - 5) =
              9 + block.length := by
            simp only [Message.encode, List.length_append, List.length_cons,
              u32be_length]
            omega
          rw [hlen]
          exact List.take_left' (u32be_length _)
    | Cancel index begin_ length =>
        simp only [MessageWF] at hwf
        have hm1 : index % 2 ^ 32 = index := Nat.mod_eq_of_lt hwf.1
        have hm2 : begin_ % 2 ^ 32 = begin_ := Nat.mod_eq_of_lt hwf.2.1
        have hm3 : length % 2 ^ 32 = length := Nat.mod_eq_of_lt hwf.2.2
        constructor
        · simp only [Message.encode, Message.decode, List.append_assoc,
            readU32_u32be, readU32_u32be_nil, List.length_append,
            List.length_cons, u32be_length, hm1, hm2, hm3]
          norm_num
        · exact List.take_left' (u32be_length _)
  · intro rest
    simp [Message.decode, readU32]

/-- Witness for C3 at a concrete message. -/
theorem message_codec_round_trip_witness :
    Message.decode (Message.encode (.Request 1 2 3)) = .ok (some (.Request 1 2 3))
    ∧ Message.decode [0, 0, 0, 0] = .ok none :=
  ⟨(message_codec_round_trip.1 (.Request 1 2 3) (by decide)).1,
   message_codec_round_trip.2 []⟩

/-- C7: Handshake::decode succeeds exactly on 68-byte buffers whose first
byte is 19 followed by the ASCII string "BitTorrent protocol", returning the
info-hash from bytes 28..48 and the peer-id from bytes 48..68; any other
buffer fails with the parse error the spec calls HandshakeMalformed (the
code's ParserError); and decode of encode recovers the two fields. -/
theorem handshake_decode_spec :
    (∀ buf : List Nat,
        (∃ h, Handshake.decode buf = .ok h) ↔
          buf.length = 68 ∧ buf.headD 0 = 19 ∧
            (buf.drop 1).take 19 = PROTOCOL_STR_BYTES)
    ∧ (∀ buf h, Handshake.decode buf = .ok h →
        h.info_hash = (buf.drop 28).take 20 ∧ h.peer_id = (buf.drop 48).take 20)
    ∧ (∀ buf, (∃ h, Handshake.decode buf = .ok h) ∨
        ∃ s, Handshake.decode buf = .error (.ParserError s))
    ∧ (∀ h : Handshake, h.info_hash.length = 20 → h.peer_id.length = 20 →
        Handshake.decode (Handshake.encode h) = .ok h) := by
  have hplen : PROTOCOL_STR_BYTES.length = 19 := rfl
  refine ⟨?_, ?_, ?_, ?_⟩
  · intro buf
    constructor
    · rintro ⟨h, hd⟩
      unfold Handshake.decode at hd
      split_ifs at hd with h1 h2 h3 <;>
        first
          | exact Except.noConfusion hd
          | (cases hd
             rw [hplen] at h2 h3
             push_neg at h1 h2 h3
             exact ⟨h1, h2, h3⟩)
    · rintro ⟨hl, hh, hp⟩
      refine ⟨{ info_hash := (buf.drop 28).take 20, peer_id := (buf.drop 48).take 20 }, ?_⟩
      unfold Handshake.decode
      rw [if_neg (by rw [hl]; exact fun hc => hc rfl),
        if_neg (by rw [hplen, hh]; exact fun hc => hc rfl),
        if_neg (by rw [hplen, hp]; exact fun hc => hc rfl)]
  · intro buf h' hd
    unfold Handshake.decode at hd
    split_ifs at hd with h1 h2 h3 <;>
      first
        | exact Except.noConfusion hd
        | (cases hd
           exact ⟨rfl, rfl⟩)
  · intro buf
    unfold Handshake.decode
    split_ifs with h1 h2 h3
    · exact Or.inr ⟨_, rfl⟩
    · exact Or.inr ⟨_, rfl⟩
    · exact Or.inr ⟨_, rfl⟩
    · exact Or.inl ⟨_, rfl⟩
  · intro h hih hpid
    have hsplit : Handshake.encode h =
        (19 :: PROTOCOL_STR_BYTES ++ List.replicate 8 0) ++ (h.info_hash ++ h.peer_id) := by
      simp [Handshake.encode]
    have hlen28 : (19 :: PROTOCOL_STR_BYTES ++ List.replicate 8 0).length = 28 := rfl
    have hlen : (Handshake.encode h).length = 68 := by
      rw [hsplit]
      simp [List.length_append, hih, hpid, hplen]
    have hdrop28 : (Handshake.encode h).drop 28 = h.info_hash ++ h.peer_id := by
      rw [hsplit]
      exact List.drop_left' hlen28
    have hdrop48 : (Handshake.encode h).drop 48 = h.peer_id := by
      have : (48 : Nat) = 28 + 20 := rfl
      rw [this, ← List.drop_drop, hdrop28]
      exact List.drop_left' hih
    have hhead : (Handshake.encode h).headD 0 = 19 := by rw [hsplit]; rfl
    have hproto : ((Handshake.encode h).drop 1).take 19 = PROTOCOL_STR_BYTES := by
      rw [hsplit]
      show (PROTOCOL_STR_BYTES ++ (List.replicate 8 0 ++ (h.info_hash ++ h.peer_id))).take 19
        = PROTOCOL_STR_BYTES
      exact List.take_left' hplen
    unfold Handshake.decode
    rw [if_neg (by rw [hlen]; exact fun hc => hc rfl),
      if_neg (by rw [hplen, hhead]; exact fun hc => hc rfl),
      if_neg (by rw [hplen, hproto]; exact fun hc => hc rfl)]
    rw [hdrop28, hdrop48]
    have htake : (h.info_hash ++ h.peer_id).take 20 = h.info_hash := List.take_left' hih
    have htake2 : h.peer_id.take 20 = h.peer_id := by
      rw [← hpid]
      exact List.take_length _
    rw [htake, htake2]

/-- Witness for C7: a concrete 68-byte handshake round-trips, and a buffer
with a corrupted protocol string is rejected with a parse error. -/
theorem handshake_decode_spec_witness :
    Handshake.decode (Handshake.encode ⟨List.replicate 20 1, List.replicate 20 2⟩) =
      .ok ⟨List.replicate 20 1, List.replicate 20 2⟩
    ∧ ((∃ h, Handshake.decode (List.replicate 68 0) = .ok h) ∨
        ∃ s, Handshake.decode (List.replicate 68 0) = .error (.ParserError s)) :=
  ⟨handshake_decode_spec.2.2.2 ⟨List.replicate 20 1, List.replicate 20 2⟩ rfl rfl,
   handshake_decode_spec.2.2.1 (List.replicate 68 0)⟩

/-! ### Supporting lemmas about modifyIdx and modifyFirst -/

theorem modifyIdx_of_none {α : Type} (l : List α) (i : Nat) (f : α → α)
    (h : l[i]? = none) : modifyIdx l i f = l := by
  induction l generalizing i with
  | nil => rfl
  | cons x xs ih =>
      cases i with
      | zero => simp at h
      | succ n =>
          simp only [List.getElem?_cons_succ] at h
          simp only [modifyIdx]
          rw [ih n h]

theorem modifyIdx_of_fix {α : Type} (l : List α) (i : Nat) (f : α → α)
    (h : ∀ x, l[i]? = some x → f x = x) : modifyIdx l i f = l := by
  induction l generalizing i with
  | nil => rfl
  | cons x xs ih =>
      cases i with
      | zero =>
          simp only [modifyIdx]
          rw [h x (by simp)]
      | succ n =>
          simp only [modifyIdx]
          rw [ih n]
          intro y hy
          exact h y (by simpa using hy)

theorem modifyIdx_same {α : Type} (l : List α) (i : Nat) (f : α → α) (x : α)
    (h : l[i]? = some x) : (modifyIdx l i f)[i]? = some (f x) := by
  induction l generalizing i with
  | nil => simp at h
  | cons y ys ih =>
      cases i with
      | zero =>
          simp only [List.getElem?_cons_zero] at h
          cases h
          simp [modifyIdx]
      | succ n =>
          simp only [List.getElem?_cons_succ] at h
          simp only [modifyIdx, List.getElem?_cons_succ]
          exact ih n h

theorem modifyIdx_ne {α : Type} (l : List α) (i j : Nat) (f : α → α)
    (h : i ≠ j) : (modifyIdx l j f)[i]? = l[i]? := by
  induction l generalizing i j with
  | nil => rfl
  | cons y ys ih =>
      cases j with
      | zero =>
          cases i with
          | zero => exact absurd rfl h
          | succ n => simp [modifyIdx]
      | succ n =>
          cases i with
          | zero => simp [modifyIdx]
          | succ k =>
              simp only [modifyIdx, List.getElem?_cons_succ]
              exact ih k n (fun hk => h (by rw [hk]))

theorem modifyFirst_of_none {α : Type} (p : α → Bool) (f : α → α) (l : List α)
    (h : ∀ x ∈ l, p x = false) : modifyFirst p f l = l := by
  induction l with
  | nil => rfl
  | cons x xs ih =>
      simp only [modifyFirst]
      rw [if_neg (by rw [h x (by simp)]; exact fun hc => nomatch hc), ih]
      intro y hy
      exact h y (by simp [hy])

theorem modifyFirst_or {α : Type} (p : α → Bool) (f : α → α) (l : List α)
    (j : Nat) (b : α) (h : l[j]? = some b) :
    (modifyFirst p f l)[j]? = some b ∨ (modifyFirst p f l)[j]? = some (f b) := by
  induction l generalizing j with
  | nil => simp at h
  | cons x xs ih =>
      simp only [modifyFirst]
      by_cases hp : p x
      · rw [if_pos hp]
        cases j with
        | zero =>
            simp only [List.getElem?_cons_zero] at h
            cases h
            exact Or.inr (by simp)
        | succ n => exact Or.inl h
      · rw [if_neg hp]
        cases j with
        | zero =>
            simp only [List.getElem?_cons_zero] at h
            cases h
            exact Or.inl (by simp)
        | succ n =>
            simp only [List.getElem?_cons_succ] at h
            simpa only [List.getElem?_cons_succ] using ih n h

theorem modifyFirst_match {α : Type} (p : α → Bool) (f : α → α) (l : List α)
    (j : Nat) (b : α) (h : l[j]? = some b) (hb : p b = true)
    (hfirst : ∀ k, k < j → ∀ b', l[k]? = some b' → p b' = false) :
    (modifyFirst p f l)[j]? = some (f b) := by
  induction l generalizing j with
  | nil => simp at h
  | cons x xs ih =>
      cases j with
      | zero =>
          simp only [List.getElem?_cons_zero] at h
          cases h
          simp only [modifyFirst]
          rw [if_pos hb]
          simp
      | succ n =>
          have hx : p x = false := hfirst 0 (Nat.succ_pos n) x (by simp)
          simp only [List.getElem?_cons_succ] at h
          simp only [modifyFirst]
          rw [if_neg (by rw [hx]; exact fun hc => nomatch hc)]
          simp only [List.getElem?_cons_succ]
          exact ih n h (fun k hk b' hb' =>
            hfirst (k + 1) (Nat.succ_lt_succ hk) b' (by simpa using hb'))

/-! ### C10: totality of the piece-manager operations -/

/-- C10: the piece-manager operations are total on arbitrary coordinates: a
piece index with no piece, or an offset matching no block of the piece,
leaves the manager unchanged under both mark operations, and
is_piece_complete answers false for a missing piece; mark_block_requested
only promotes a NotRequested block, so a Downloaded block is never
demoted. -/
theorem piece_manager_ops_total :
    (∀ (m : PieceManager) (pidx boff : Nat), m.pieces[pidx]? = none →
        m.mark_block_requested pidx boff = m ∧
        m.mark_block_downloaded pidx boff = m ∧
        m.is_piece_complete pidx = false)
    ∧ (∀ (m : PieceManager) (pidx boff : Nat) (p : Piece),
        m.pieces[pidx]? = some p → (∀ b ∈ p.blocks, b.offset ≠ boff) →
        m.mark_block_requested pidx boff = m ∧ m.mark_block_downloaded pidx boff = m)
    ∧ (∀ (m : PieceManager) (pidx boff i j : Nat),
        ((m.pieces[i]?).bind (fun p => p.blocks[j]?)).map Block.state =
          some BlockState.Downloaded →
        (((m.mark_block_requested pidx boff).pieces[i]?).bind
            (fun p => p.blocks[j]?)).map Block.state = some BlockState.Downloaded) := by
  refine ⟨?_, ?_, ?_⟩
  · intro m pidx boff h
    refine ⟨?_, ?_, ?_⟩
    · show ({ m with pieces := _ } : PieceManager) = m
      rw [modifyIdx_of_none _ _ _ h]
    · show ({ m with pieces := _ } : PieceManager) = m
      rw [modifyIdx_of_none _ _ _ h]
    · simp [PieceManager.is_piece_complete, h]
  · intro m pidx boff p hp hboff
    have hnone : ∀ b ∈ p.blocks, (b.offset == boff) = false := by
      intro b hb
      simpa using hboff b hb
    constructor
    · show ({ m with pieces := _ } : PieceManager) = m
      rw [modifyIdx_of_fix]
      intro x hx
      rw [hp] at hx
      cases hx
      rw [modifyFirst_of_none _ _ _ hnone]
    · show ({ m with pieces := _ } : PieceManager) = m
      rw [modifyIdx_of_fix]
      intro x hx
      rw [hp] at hx
      cases hx
      rw [modifyFirst_of_none _ _ _ hnone]
  · intro m pidx boff i j h
    by_cases hi : i = pidx
    · subst hi
      cases hp : m.pieces[i]? with
      | none => rw [hp] at h; simp at h
      | some p =>
          rw [hp] at h
          simp only [Option.some_bind] at h
          cases hb : p.blocks[j]? with
          | none => rw [hb] at h; simp at h
          | some b =>
              rw [hb] at h
              have hbstate : b.state = BlockState.Downloaded := by
                simpa using h
              have hsame := modifyIdx_same m.pieces i (fun p =>
                { p with blocks := (modifyFirst (fun b => b.offset == boff)
                    (fun b => if b.state = .NotRequested then
                      { b with state := .Requested } else b) p.blocks) }) p hp
              show (((modifyIdx m.pieces i _)[i]?).bind _).map _ = _
              rw [hsame]
              simp only [Option.some_bind]
              have hor := modifyFirst_or (fun b => b.offset == boff)
                  (fun b => if b.state = BlockState.NotRequested then
                    { b with state := BlockState.Requested } else b) p.blocks j b hb
              rcases hor with hor | hor <;> rw [hor] <;> simp [hbstate]
    · show (((modifyIdx m.pieces pidx _)[i]?).bind _).map _ = _
      rw [modifyIdx_ne _ _ _ _ hi]
      exact h

/-- Witness for C10 at concrete inputs: out-of-range piece index 5, and an
offset (7) matching no block. -/
theorem piece_manager_ops_total_witness :
    ((PieceManager.new T2c 4).mark_block_requested 5 0 = PieceManager.new T2c 4 ∧
      (PieceManager.new T2c 4).mark_block_downloaded 5 0 = PieceManager.new T2c 4 ∧
      (PieceManager.new T2c 4).is_piece_complete 5 = false)
    ∧ ((PieceManager.new T2c 4).mark_block_requested 0 7 = PieceManager.new T2c 4 ∧
        (PieceManager.new T2c 4).mark_block_downloaded 0 7 = PieceManager.new T2c 4) :=
  ⟨piece_manager_ops_total.1 (PieceManager.new T2c 4) 5 0 (by decide),
   piece_manager_ops_total.2.1 (PieceManager.new T2c 4) 0 7
     { index := 0, blocks := [{ offset := 0, length := 4, state := .NotRequested }] }
     (by decide) (by decide)⟩

/-! ### C2: mark_block_downloaded performs no Requested-state validation -/

/-- C2 counterexample: in the manager built from the concrete torrent T2c
the block at (0, 0) is NotRequested (hence not Requested), yet
mark_block_downloaded still transitions it to Downloaded, contradicting the
claim that a block whose state is not Requested is never transitioned. -/
theorem mark_block_downloaded_counterexample :
    ∃ b, ((PieceManager.new T2c 4).pieces[0]?).bind (fun p => p.blocks[0]?) = some b
      ∧ b.state ≠ BlockState.Requested
      ∧ (((PieceManager.new T2c 4).mark_block_downloaded 0 0).pieces[0]?).bind
          (fun p => p.blocks[0]?) =
          some { offset := b.offset, length := b.length, state := BlockState.Downloaded } := by
  refine ⟨{ offset := 0, length := 4, state := .NotRequested }, ?_, ?_, ?_⟩ <;> decide

/-- C2 amended: mark_block_downloaded marks the addressed block Downloaded
regardless of its current state; only a missing piece index or an offset
matching no block leaves the manager unchanged.  (The first block whose
offset matches is the one Iterator::find selects.) -/
theorem mark_block_downloaded_any_state :
    ∀ (m : PieceManager) (pidx boff j : Nat) (p : Piece) (b : Block),
      m.pieces[pidx]? = some p →
      p.blocks[j]? = some b → b.offset = boff →
      (∀ k, k < j → ∀ b', p.blocks[k]? = some b' → b'.offset ≠ boff) →
      ∃ p', (m.mark_block_downloaded pidx boff).pieces[pidx]? = some p' ∧
        p'.blocks[j]? =
          some { offset := b.offset, length := b.length, state := BlockState.Downloaded } := by
  intro m pidx boff j p b hp hb hoff hfirst
  refine ⟨_, modifyIdx_same _ _ _ _ hp, ?_⟩
  show (modifyFirst _ _ p.blocks)[j]? = _
  rw [modifyFirst_match (fun b => b.offset == boff)
    (fun b => { b with state := BlockState.Downloaded }) p.blocks j b hb
    (by simp [hoff])
    (fun k hk b' hb' => by simpa using hfirst k hk b' hb')]

/-- Witness for the amended C2 at a concrete manager whose single block is
NotRequested. -/
theorem mark_block_downloaded_any_state_witness :
    ∃ p', ((PieceManager.new T2c 4).mark_block_downloaded 0 0).pieces[0]? = some p' ∧
      p'.blocks[0]? =
        some { offset := 0, length := 4, state := BlockState.Downloaded } :=
  mark_block_downloaded_any_state (PieceManager.new T2c 4) 0 0 0
    { index := 0, blocks := [{ offset := 0, length := 4, state := .NotRequested }] }
    { offset := 0, length := 4, state := .NotRequested }
    (by decide) (by decide) (by decide) (fun k hk b' hb' => by omega)

/-! ### Laying out blocks: facts about blocksFor -/

theorem mul_lt_of_lt_ceilDiv {bs ps j : Nat} (hbs : 0 < bs)
    (hj : j < (ps + bs - 1) / bs) : j * bs < ps := by
  by_cases hps : ps = 0
  · subst hps
    rw [Nat.div_eq_of_lt (by omega)] at hj
    omega
  · have h2 : (j + 1) * bs ≤ ((ps + bs - 1) / bs) * bs := Nat.mul_le_mul_right bs hj
    have h3 : ((ps + bs - 1) / bs) * bs ≤ ps + bs - 1 := Nat.div_mul_le_self _ _
    have h4 : (j + 1) * bs = j * bs + bs := Nat.succ_mul j bs
    omega

theorem le_ceilDiv_mul {bs ps : Nat} (hbs : 0 < bs) :
    ps ≤ ((ps + bs - 1) / bs) * bs := by
  have h1 := Nat.div_add_mod (ps + bs - 1) bs
  have h2 : (ps + bs - 1) % bs < bs := Nat.mod_lt _ hbs
  have h3 : ((ps + bs - 1) / bs) * bs = bs * ((ps + bs - 1) / bs) := Nat.mul_comm _ _
  omega

theorem blocksFor_length (ps bs : Nat) :
    (blocksFor ps bs).length = (ps + bs - 1) / bs := by
  simp [blocksFor]

theorem blocksFor_getElem? (ps bs j : Nat) (hj : j < (ps + bs - 1) / bs) :
    (blocksFor ps bs)[j]? = some
      { offset := j * bs, length := min bs (ps - j * bs),
        state := BlockState.NotRequested } := by
  simp [blocksFor, List.getElem?_map, List.getElem?_range hj]

theorem blocksFor_sum (ps bs : Nat) (hbs : 0 < bs) :
    blockLengthSum (blocksFor ps bs) = ps := by
  have key : ∀ K, ((List.range K).map (fun k => min bs (ps - k * bs))).sum
      = min ps (K * bs) := by
    intro K
    induction K with
    | zero => simp
    | succ n ih =>
        rw [List.range_succ, List.map_append, List.sum_append, ih]
        simp only [List.map_cons, List.map_nil, List.sum_cons, List.sum_nil]
        rw [Nat.succ_mul]
        omega
  have hrw : blockLengthSum (blocksFor ps bs)
      = ((List.range ((ps + bs - 1) / bs)).map (fun k => min bs (ps - k * bs))).sum := by
    simp [blockLengthSum, blocksFor, List.map_map]
    rfl
  rw [hrw, key]
  exact Nat.min_eq_left (le_ceilDiv_mul hbs)

theorem new_pieces_length (t : Torrent) (bs : Nat) :
    (PieceManager.new t bs).pieces.length = t.pieces_count := by
  simp [PieceManager.new]

theorem new_last_len (t : Torrent) (bs : Nat) :
    (PieceManager.new t bs).last_len =
      (if usize_of_int t.total_size % usize_of_int t.piece_length = 0
       then usize_of_int t.piece_length
       else usize_of_int t.total_size % usize_of_int t.piece_length) := rfl

theorem new_pieces_getElem? (t : Torrent) (bs i : Nat) (hi : i < t.pieces_count) :
    (PieceManager.new t bs).pieces[i]? = some
      { index := i,
        blocks := blocksFor
          (if i = t.pieces_count - 1 then (PieceManager.new t bs).last_len
           else usize_of_int t.piece_length) bs } := by
  show ((List.range t.pieces_count).map _)[i]? = _
  rw [List.getElem?_map, List.getElem?_range hi]
  rfl

theorem usize_of_int_pos {x : Int} (h1 : 0 < x) (h2 : x < 2 ^ 63) :
    0 < usize_of_int x := by
  unfold usize_of_int
  rw [Int.emod_eq_of_lt (le_of_lt h1) (lt_trans h2 (by norm_num))]
  omega

/-! ### C8: the shape of the pieces built by PieceManager::new -/

/-- C8 counterexample: for the concrete torrent T8c (piece length 4, two
pieces, total size 100 — accepted by the loader, which never cross-checks
the piece table against the total size) with block size 4, all positivity
hypotheses of the claim hold, yet the terminal piece's block lengths sum to
4, not to total size − (piece count − 1) × piece length = 96 (and 96 is not
the zero that maps to a full piece). -/
theorem last_piece_formula_counterexample :
    0 < (4 : Nat) ∧ 0 < T8c.piece_length ∧ 0 < T8c.total_size ∧
    usize_of_int T8c.total_size -
      (T8c.pieces_count - 1) * usize_of_int T8c.piece_length = 96 ∧
    (96 : Nat) ≠ 0 ∧
    ∃ p, (PieceManager.new T8c 4).pieces[T8c.pieces_count - 1]? = some p ∧
      blockLengthSum p.blocks = 4 ∧
      blockLengthSum p.blocks ≠
        usize_of_int T8c.total_size -
          (T8c.pieces_count - 1) * usize_of_int T8c.piece_length := by
  refine ⟨by decide, by decide, by decide, by decide, by decide,
    { index := 1, blocks := [{ offset := 0, length := 4, state := .NotRequested }] },
    by decide, by decide, by decide⟩

/-- C8 amended: with the last-piece length as the code computes it (total
size mod piece length, zero mapping to a full piece) the invariants hold:
for every torrent with positive piece length (in i64 range) and positive
total size and every positive block size, each piece of PieceManager::new
starts at offset 0, has contiguous strictly increasing block offsets,
positive block lengths bounded by the block size, and block lengths summing
to the piece length for non-terminal pieces and to last_len for the
terminal piece. -/
theorem piece_manager_new_invariants :
    ∀ (t : Torrent) (bs : Nat),
      0 < bs → 0 < t.piece_length → t.piece_length < 2 ^ 63 → 0 < t.total_size →
      ((PieceManager.new t bs).pieces.length = t.pieces_count ∧
       (PieceManager.new t bs).last_len =
         (if usize_of_int t.total_size % usize_of_int t.piece_length = 0
          then usize_of_int t.piece_length
          else usize_of_int t.total_size % usize_of_int t.piece_length) ∧
       ∀ (i : Nat) (p : Piece), (PieceManager.new t bs).pieces[i]? = some p →
         p.index = i ∧
         (p.blocks[0]?).map Block.offset = some 0 ∧
         (∀ (j : Nat) (b : Block), p.blocks[j]? = some b → 0 < b.length ∧ b.length ≤ bs) ∧
         (∀ (j : Nat) (b b' : Block), p.blocks[j]? = some b → p.blocks[j + 1]? = some b' →
            b.offset < b'.offset ∧ b'.offset = b.offset + b.length) ∧
         blockLengthSum p.blocks =
           (if i = t.pieces_count - 1 then (PieceManager.new t bs).last_len
            else usize_of_int t.piece_length)) := by
  intro t bs hbs hpl hpl2 htot
  have hlenpos : 0 < usize_of_int t.piece_length := usize_of_int_pos hpl hpl2
  have hlastpos : 0 < (PieceManager.new t bs).last_len := by
    rw [new_last_len]
    split
    · exact hlenpos
    · have := Nat.pos_of_ne_zero (by assumption)
      exact this
  refine ⟨new_pieces_length t bs, rfl, ?_⟩
  intro i p hp
  have hi : i < t.pieces_count := by
    by_contra hge
    rw [List.getElem?_eq_none (by rw [new_pieces_length]; omega)] at hp
    cases hp
  rw [new_pieces_getElem? t bs i hi] at hp
  cases hp
  generalize hps : (if i = t.pieces_count - 1 then (PieceManager.new t bs).last_len
      else usize_of_int t.piece_length) = ps
  have hpspos : 0 < ps := by
    rw [← hps]
    split
    · exact hlastpos
    · exact hlenpos
  have hK : 0 < (ps + bs - 1) / bs := Nat.div_pos (by omega) hbs
  refine ⟨rfl, ?_, ?_, ?_, ?_⟩
  · show ((blocksFor ps bs)[0]?).map Block.offset = some 0
    rw [blocksFor_getElem? ps bs 0 hK]
    simp
  · intro j b hbj
    have hj : j < (ps + bs - 1) / bs := by
      by_contra hge
      rw [show (blocksFor ps bs)[j]? = none from
        List.getElem?_eq_none (by rw [blocksFor_length]; omega)] at hbj
      cases hbj
    rw [blocksFor_getElem? ps bs j hj] at hbj
    cases hbj
    have hlt := mul_lt_of_lt_ceilDiv hbs hj
    constructor
    · show 0 < min bs (ps - j * bs)
      omega
    · show min bs (ps - j * bs) ≤ bs
      omega
  · intro j b b' hbj hbj'
    have hj' : j + 1 < (ps + bs - 1) / bs := by
      by_contra hge
      rw [show (blocksFor ps bs)[j + 1]? = none from
        List.getElem?_eq_none (by rw [blocksFor_length]; omega)] at hbj'
      cases hbj'
    have hj : j < (ps + bs - 1) / bs := by omega
    rw [blocksFor_getElem? ps bs j hj] at hbj
    rw [blocksFor_getElem? ps bs (j + 1) hj'] at hbj'
    cases hbj
    cases hbj'
    have hlt' := mul_lt_of_lt_ceilDiv hbs hj'
    have hsm : (j + 1) * bs = j * bs + bs := Nat.succ_mul j bs
    constructor
    · show j * bs < (j + 1) * bs
      omega
    · show (j + 1) * bs = j * bs + min bs (ps - j * bs)
      omega
  · show blockLengthSum (blocksFor ps bs) = ps
    exact blocksFor_sum ps bs hbs

/-- Witness for the amended C8 at the concrete consistent torrent T6c with
block size 4: the terminal piece exists and its block lengths sum to
last_len (= 6 mod 4 = 2). -/
theorem piece_manager_new_invariants_witness :
    ∃ p, (PieceManager.new T6c 4).pieces[1]? = some p ∧
      blockLengthSum p.blocks =
        (if 1 = T6c.pieces_count - 1 then (PieceManager.new T6c 4).last_len
         else usize_of_int T6c.piece_length) :=
  ⟨{ index := 1, blocks := [{ offset := 0, length := 2, state := .NotRequested }] },
   by decide,
   ((piece_manager_new_invariants T6c 4 (by decide) (by decide) (by decide)
      (by decide)).2.2 1
      { index := 1, blocks := [{ offset := 0, length := 2, state := .NotRequested }] }
      (by decide)).2.2.2.2⟩

/-! ### C6: needed_blocks is handed out in strict (piece, offset) order -/

/-- C6: for every piece manager built by PieceManager::new (positive block
size; piece length positive and in i64 range, as required for new not to
panic), needed_blocks is strictly increasing in lexicographic
(piece index, offset) order, and in particular duplicate-free. -/
theorem needed_blocks_strictly_increasing :
    ∀ (t : Torrent) (bs : Nat), 0 < bs → 0 < t.piece_length →
      t.piece_length < 2 ^ 63 →
      (PieceManager.new t bs).needed_blocks.Pairwise lexLt ∧
      (PieceManager.new t bs).needed_blocks.Nodup := by
  intro t bs hbs hpl hpl2
  have hpw : (PieceManager.new t bs).needed_blocks.Pairwise lexLt := by
    unfold PieceManager.needed_blocks
    rw [List.flatMap_def, List.pairwise_flatten]
    constructor
    · intro l' hl'
      rw [List.mem_map] at hl'
      obtain ⟨pc, hpc, rfl⟩ := hl'
      rw [List.pairwise_map]
      have hblocks : List.Pairwise (fun b b' : Block => b.offset < b'.offset) pc.blocks := by
        have hpc' : pc ∈ (List.range t.pieces_count).map (fun i =>
            ({ index := i,
               blocks := blocksFor
                 (if i = t.pieces_count - 1 then (PieceManager.new t bs).last_len
                  else usize_of_int t.piece_length) bs } : Piece)) := hpc
        rw [List.mem_map] at hpc'
        obtain ⟨i, _, rfl⟩ := hpc'
        show List.Pairwise _ (blocksFor _ bs)
        unfold blocksFor
        rw [List.pairwise_map]
        refine (List.pairwise_lt_range _).imp ?_
        intro a b hab
        show a * bs < b * bs
        exact (Nat.mul_lt_mul_right hbs).mpr hab
      refine (List.Pairwise.sublist (List.filter_sublist _) hblocks).imp ?_
      intro a b hab
      exact Or.inr ⟨rfl, hab⟩
    · rw [List.pairwise_map]
      show List.Pairwise _ ((List.range t.pieces_count).map _)
      rw [List.pairwise_map]
      refine (List.pairwise_lt_range _).imp ?_
      intro a b hab x hx y hy
      rw [List.mem_map] at hx hy
      obtain ⟨xb, _, rfl⟩ := hx
      obtain ⟨yb, _, rfl⟩ := hy
      exact Or.inl hab
  refine ⟨hpw, hpw.imp ?_⟩
  intro a b hab
  intro heq
  subst heq
  rcases hab with h | ⟨-, h⟩ <;> exact absurd h (lt_irrefl _)

/-- Witness for C6 at the concrete torrent T6c with block size 4. -/
theorem needed_blocks_strictly_increasing_witness :
    (PieceManager.new T6c 4).needed_blocks.Pairwise lexLt ∧
      (PieceManager.new T6c 4).needed_blocks.Nodup :=
  needed_blocks_strictly_increasing T6c 4 (by decide) (by decide) (by decide)

/-! ### C9: compact peer lists -/

theorem compact_peers_length (data : List Nat) :
    (compact_peers data).length = data.length / 6 := by
  induction data using compact_peers.induct with
  | case1 a b c d e f rest ih =>
      simp only [compact_peers, List.length_cons, ih]
      omega
  | case2 l h =>
      match l, h with
      | [], _ => simp [compact_peers]
      | [x1], _ => simp [compact_peers]
      | [x1, x2], _ => simp [compact_peers]
      | [x1, x2, x3], _ => simp [compact_peers]
      | [x1, x2, x3, x4], _ => simp [compact_peers]
      | [x1, x2, x3, x4, x5], _ => simp [compact_peers]
      | x1 :: x2 :: x3 :: x4 :: x5 :: x6 :: r, h => exact absurd rfl (h x1 x2 x3 x4 x5 x6 r)

/-- C9: on a compact byte-string peers payload the tracker client yields
one peer per full 6-byte group — the group count is the byte length
divided by 6, each group contributes the 4-byte IPv4 address followed by
the big-endian 2-byte port — and the concrete payload C0 A8 01 01 1A E1
yields exactly one peer, 192.168.1.1 port 6881. -/
theorem announce_peers_compact :
    (∀ data : List Nat, data.length % 6 = 0 →
        (AnnounceResponse.peers { peers_data := .bytes data, interval := none }).length
          = data.length / 6)
    ∧ (∀ (a b c d e f : Nat) (rest : List Nat),
        AnnounceResponse.peers
            { peers_data := .bytes (a :: b :: c :: d :: e :: f :: rest), interval := none } =
          { ip := IpAddr.V4 a b c d, port := e * 256 + f } ::
            AnnounceResponse.peers { peers_data := .bytes rest, interval := none })
    ∧ AnnounceResponse.peers
          { peers_data := .bytes [192, 168, 1, 1, 26, 225], interval := none } =
        [{ ip := IpAddr.V4 192 168 1 1, port := 6881 }] := by
  refine ⟨?_, ?_, by decide⟩
  · intro data _
    exact compact_peers_length data
  · intro a b c d e f rest
    rfl

/-- Witness for C9: the length clause applied to the concrete 6-byte
payload. -/
theorem announce_peers_compact_witness :
    (AnnounceResponse.peers
        { peers_data := .bytes [192, 168, 1, 1, 26, 225], interval := none }).length
      = [192, 168, 1, 1, 26, 225].length / 6 :=
  announce_peers_compact.1 [192, 168, 1, 1, 26, 225] (by decide)

/-! ### C4: the Bitfield arm inserts without any range validation -/

theorem bitfold_inner (y i : Nat) (bits : List Nat) (acc : Finset Nat) (x : Nat) :
    (x ∈ bits.foldl (fun acc2 bit =>
        if bit_set y bit then insert (i * 8 + bit) acc2 else acc2) acc) ↔
      x ∈ acc ∨ ∃ bit ∈ bits, bit_set y bit = true ∧ x = i * 8 + bit := by
  induction bits generalizing acc with
  | nil => simp
  | cons b bs ih =>
      simp only [List.foldl_cons]
      rw [ih]
      by_cases hb : bit_set y b
      · simp only [hb, if_pos, Finset.mem_insert, List.mem_cons]
        constructor
        · rintro ((h | h) | h)
          · exact Or.inr ⟨b, Or.inl rfl, hb, h⟩
          · exact Or.inl h
          · rcases h with ⟨bit, hbit, hs, hx⟩
            exact Or.inr ⟨bit, Or.inr hbit, hs, hx⟩
        · rintro (h | ⟨bit, hbit, hs, hx⟩)
          · exact Or.inl (Or.inr h)
          · rcases hbit with rfl | hbit
            · exact Or.inl (Or.inl hx)
            · exact Or.inr ⟨bit, hbit, hs, hx⟩
      · simp only [hb, if_neg, List.mem_cons]
        constructor
        · rintro (h | ⟨bit, hbit, hs, hx⟩)
          · exact Or.inl h
          · exact Or.inr ⟨bit, Or.inr hbit, hs, hx⟩
        · rintro (h | ⟨bit, hbit, hs, hx⟩)
          · exact Or.inl h
          · rcases hbit with rfl | hbit
            · rw [hs] at hb
              exact absurd rfl hb
            · exact Or.inr ⟨bit, hbit, hs, hx⟩

theorem bitfold_outer (l : List (Nat × Nat)) (acc : Finset Nat) (x : Nat) :
    (x ∈ l.foldl (fun acc ib =>
        (List.range 8).foldl (fun acc2 bit =>
          if bit_set ib.2 bit then insert (ib.1 * 8 + bit) acc2 else acc2) acc) acc) ↔
      x ∈ acc ∨ ∃ ib ∈ l, ∃ bit, bit < 8 ∧ bit_set ib.2 bit = true ∧ x = ib.1 * 8 + bit := by
  induction l generalizing acc with
  | nil => simp
  | cons p ps ih =>
      simp only [List.foldl_cons]
      rw [ih]
      rw [bitfold_inner p.2 p.1]
      constructor
      · rintro ((h | ⟨bit, hbit, hs, hx⟩) | ⟨ib, hib, bit, hbit, hs, hx⟩)
        · exact Or.inl h
        · exact Or.inr ⟨p, List.mem_cons_self _ _, bit, List.mem_range.mp hbit, hs, hx⟩
        · exact Or.inr ⟨ib, List.mem_cons_of_mem _ hib, bit, hbit, hs, hx⟩
      · rintro (h | ⟨ib, hib, bit, hbit, hs, hx⟩)
        · exact Or.inl (Or.inl h)
        · rcases List.mem_cons.mp hib with rfl | hib
          · exact Or.inl (Or.inr ⟨bit, List.mem_range.mpr hbit, hs, hx⟩)
          · exact Or.inr ⟨ib, hib, bit, hbit, hs, hx⟩

/-- C4 counterexample: with one advertised piece (piece_count = 1) and the
bitfield byte 0xC0 (bits 0 and 1 set, bit 1 being non-zero padding), the
Bitfield arm silently inserts piece index 1, which is not below
piece_count; no BitfieldOutOfRange failure exists in the handler. -/
theorem bitfield_padding_counterexample :
    (1 : Nat) ∈ apply_bitfield ∅ [192] ∧ ¬ (1 < 1) :=
  ⟨by decide, by omega⟩

/-- C4 amended: the Bitfield arm of read_messages performs no range
validation at all — it unconditionally inserts byte_index * 8 + bit_index
(MSB first) for every set bit, including padding bits at positions at or
beyond the torrent's piece count, and it cannot fail. -/
theorem apply_bitfield_spec :
    ∀ (avail : Finset Nat) (bytes : List Nat) (x : Nat),
      x ∈ apply_bitfield avail bytes ↔
        x ∈ avail ∨ ∃ i y bit, bytes[i]? = some y ∧ bit < 8 ∧
          bit_set y bit = true ∧ x = i * 8 + bit := by
  intro avail bytes x
  unfold apply_bitfield
  rw [bitfold_outer]
  constructor
  · rintro (h | ⟨ib, hib, bit, hbit, hset, hx⟩)
    · exact Or.inl h
    · exact Or.inr ⟨ib.1, ib.2, bit, List.mem_enum_iff_getElem?.mp hib, hbit, hset, hx⟩
  · rintro (h | ⟨i, y, bit, hg, hbit, hset, hx⟩)
    · exact Or.inl h
    · exact Or.inr ⟨(i, y), List.mem_enum_iff_getElem?.mpr hg, bit, hbit, hset, hx⟩

/-! ### Decimal digits round-trip through the bencode reader -/

theorem nat_ascii_aux_ne_nil (fuel n : Nat) : nat_ascii_aux (fuel + 1) n ≠ [] := by
  simp only [nat_ascii_aux]
  split
  · exact fun hc => nomatch hc
  · simp

theorem nat_ascii_ne_nil (n : Nat) : nat_ascii n ≠ [] :=
  nat_ascii_aux_ne_nil n n

theorem nat_ascii_aux_digits (fuel : Nat) :
    ∀ n, ∀ c ∈ nat_ascii_aux fuel n, is_digit c = true := by
  induction fuel with
  | zero => intro n c hc; simp [nat_ascii_aux] at hc
  | succ f ih =>
      intro n c hc
      simp only [nat_ascii_aux] at hc
      split at hc
      · simp only [List.mem_singleton] at hc
        subst hc
        simp only [is_digit]
        have : n < 10 := by assumption
        simp only [Bool.and_eq_true, decide_eq_true_eq]
        omega
      · rw [List.mem_append] at hc
        rcases hc with hc | hc
        · exact ih (n / 10) c hc
        · simp only [List.mem_singleton] at hc
          subst hc
          simp only [is_digit]
          have : n % 10 < 10 := Nat.mod_lt _ (by omega)
          simp only [Bool.and_eq_true, decide_eq_true_eq]
          omega

theorem nat_ascii_digits (n : Nat) : ∀ c ∈ nat_ascii n, is_digit c = true :=
  nat_ascii_aux_digits (n + 1) n

theorem read_digits_append (ds rest : List Nat) (acc : Nat)
    (hd : ∀ c ∈ ds, is_digit c = true)
    (hr : is_digit (rest.headD 0) = false) :
    read_digits (ds ++ rest) acc = (ds.foldl (fun a c => a * 10 + (c - 48)) acc, rest) := by
  induction ds generalizing acc with
  | nil =>
      simp only [List.nil_append, List.foldl_nil]
      cases rest with
      | nil => rfl
      | cons c t =>
          simp only [List.headD_cons] at hr
          simp only [read_digits]
          rw [if_neg (by rw [hr]; exact fun hc => nomatch hc)]
  | cons d ds' ih =>
      have hdd : is_digit d = true := hd d (by simp)
      simp only [List.cons_append, read_digits, List.foldl_cons]
      rw [if_pos hdd]
      exact ih _ (fun c hc => hd c (by simp [hc]))

theorem nat_ascii_aux_val (fuel : Nat) :
    ∀ n, n < 10 ^ fuel →
      (nat_ascii_aux fuel n).foldl (fun a c => a * 10 + (c - 48)) 0 = n := by
  induction fuel with
  | zero =>
      intro n hn
      simp only [nat_ascii_aux, List.foldl_nil]
      omega
  | succ f ih =>
      intro n hn
      simp only [nat_ascii_aux]
      split
      · simp only [List.foldl_cons, List.foldl_nil]
        omega
      · rw [List.foldl_append]
        have hdiv : n / 10 < 10 ^ f := by
          rw [Nat.div_lt_iff_lt_mul (by omega)]
          calc n < 10 ^ (f + 1) := hn
            _ = 10 ^ f * 10 := by ring
        rw [ih (n / 10) hdiv]
        simp only [List.foldl_cons, List.foldl_nil]
        have : n % 10 < 10 := Nat.mod_lt _ (by omega)
        omega

theorem nat_ascii_val (n : Nat) :
    (nat_ascii n).foldl (fun a c => a * 10 + (c - 48)) 0 = n := by
  refine nat_ascii_aux_val (n + 1) n ?_
  calc n < 10 ^ n + 1 := by
        have := Nat.lt_two_pow n
        have h2 : 2 ^ n ≤ 10 ^ n := Nat.pow_le_pow_left (by omega) n
        omega
    _ ≤ 10 ^ (n + 1) := by
        have h1 : 0 < 10 ^ n := Nat.pos_pow_of_pos n (by omega)
        calc 10 ^ n + 1 ≤ 10 ^ n + 10 ^ n := by omega
          _ ≤ 10 ^ n * 10 := by omega
          _ = 10 ^ (n + 1) := by ring

theorem parse_nat_encode (n : Nat) (rest : List Nat)
    (hr : is_digit (rest.headD 0) = false) :
    parse_nat (nat_ascii n ++ rest) = some (n, rest) := by
  cases h : nat_ascii n with
  | nil => exact absurd h (nat_ascii_ne_nil n)
  | cons c ds =>
      have hc : is_digit c = true := nat_ascii_digits n c (by rw [h]; simp)
      simp only [List.cons_append, parse_nat]
      rw [if_pos hc]
      rw [read_digits_append ds rest (c - 48)
        (fun x hx => nat_ascii_digits n x (by rw [h]; simp [hx])) hr]
      have hval := nat_ascii_val n
      rw [h] at hval
      simp only [List.foldl_cons, Nat.zero_mul, Nat.zero_add] at hval
      rw [hval]

theorem parse_str_encode (s r : List Nat) :
    parse_str (nat_ascii s.length ++ 58 :: (s ++ r)) = some (s, r) := by
  simp only [parse_str]
  rw [parse_nat_encode s.length (58 :: (s ++ r)) (by rfl)]
  show (if s.length ≤ (s ++ r).length then some ((s ++ r).take s.length, (s ++ r).drop s.length)
    else none) = some (s, r)
  rw [if_pos (by rw [List.length_append]; omega)]
  rw [List.take_left' rfl, List.drop_left' rfl]

theorem parse_val_str (fuel : Nat) (s r : List Nat) :
    parse_val (fuel + 1) (nat_ascii s.length ++ 58 :: (s ++ r)) =
      some (Bencode.bytes s, r) := by
  cases h : nat_ascii s.length with
  | nil => exact absurd h (nat_ascii_ne_nil _)
  | cons c ds =>
      have hc : is_digit c = true := nat_ascii_digits _ c (by rw [h]; simp)
      have hcb : 48 ≤ c ∧ c ≤ 57 := by
        simpa [is_digit, Bool.and_eq_true, decide_eq_true_eq] using hc
      simp only [List.cons_append, parse_val]
      rw [if_neg (by omega), if_neg (by omega), if_neg (by omega)]
      have hl : c :: (ds ++ 58 :: (s ++ r)) = nat_ascii s.length ++ 58 :: (s ++ r) := by
        rw [h]
        simp
      rw [hl, parse_str_encode]
      rfl

/-! ### Fuel monotonicity of the bencode parser -/

theorem parse_mono : ∀ f f', f ≤ f' →
    (∀ l r, parse_val f l = some r → parse_val f' l = some r) ∧
    (∀ l r, parse_items f l = some r → parse_items f' l = some r) ∧
    (∀ l r, parse_entries f l = some r → parse_entries f' l = some r) := by
  intro f
  induction f with
  | zero =>
      intro f' _
      refine ⟨?_, ?_, ?_⟩ <;> intro l r h <;>
        simp [parse_val, parse_items, parse_entries] at h
  | succ f ih =>
      intro f' hf'
      obtain ⟨f'', rfl⟩ : ∃ g, f' = g + 1 := ⟨f' - 1, by omega⟩
      obtain ⟨ihv, ihi, ihe⟩ := ih f'' (by omega)
      refine ⟨?_, ?_, ?_⟩
      · intro l r h
        cases l with
        | nil => simp [parse_val] at h
        | cons c rest =>
            simp only [parse_val] at h ⊢
            by_cases h105 : c = 105
            · rw [if_pos h105] at h ⊢
              exact h
            · rw [if_neg h105] at h ⊢
              by_cases h108 : c = 108
              · rw [if_pos h108] at h ⊢
                rw [Option.map_eq_some'] at h ⊢
                obtain ⟨p, hp, hr⟩ := h
                exact ⟨p, ihi _ _ hp, hr⟩
              · rw [if_neg h108] at h ⊢
                by_cases h100 : c = 100
                · rw [if_pos h100] at h ⊢
                  rw [Option.map_eq_some'] at h ⊢
                  obtain ⟨p, hp, hr⟩ := h
                  exact ⟨p, ihe _ _ hp, hr⟩
                · rw [if_neg h100] at h ⊢
                  exact h
      · intro l r h
        cases l with
        | nil => simp [parse_items] at h
        | cons c rest =>
            simp only [parse_items] at h ⊢
            by_cases h101 : c = 101
            · rw [if_pos h101] at h ⊢
              exact h
            · rw [if_neg h101] at h ⊢
              rw [Option.bind_eq_some] at h ⊢
              obtain ⟨vr, hvr, h2⟩ := h
              refine ⟨vr, ihv _ _ hvr, ?_⟩
              rw [Option.map_eq_some'] at h2 ⊢
              obtain ⟨xsr, hxsr, hr⟩ := h2
              exact ⟨xsr, ihi _ _ hxsr, hr⟩
      · intro l r h
        cases l with
        | nil => simp [parse_entries] at h
        | cons c rest =>
            simp only [parse_entries] at h ⊢
            by_cases h101 : c = 101
            · rw [if_pos h101] at h ⊢
              exact h
            · rw [if_neg h101] at h ⊢
              rw [Option.bind_eq_some] at h ⊢
              obtain ⟨kr, hkr, h2⟩ := h
              refine ⟨kr, hkr, ?_⟩
              rw [Option.bind_eq_some] at h2 ⊢
              obtain ⟨vr, hvr, h3⟩ := h2
              refine ⟨vr, ihv _ _ hvr, ?_⟩
              rw [Option.map_eq_some'] at h3 ⊢
              obtain ⟨xsr, hxsr, hr⟩ := h3
              exact ⟨xsr, ihe _ _ hxsr, hr⟩

/-! ### Locality of the bencode parser: a successful parse consumes a
well-defined prefix and its result does not depend on the bytes after it -/

theorem read_digits_split (l : List Nat) (acc n : Nat) (r : List Nat)
    (h : read_digits l acc = (n, r)) :
    ∃ ds, l = ds ++ r ∧ (∀ x ∈ ds, is_digit x = true) ∧
      n = ds.foldl (fun a c => a * 10 + (c - 48)) acc ∧
      is_digit (r.headD 0) = false := by
  induction l generalizing acc with
  | nil =>
      rw [read_digits] at h
      obtain ⟨rfl, rfl⟩ := Prod.mk.injEq .. ▸ h
      exact ⟨[], rfl, by simp, rfl, by decide⟩
  | cons c rest ih =>
      rw [read_digits] at h
      by_cases hc : is_digit c
      · rw [if_pos hc] at h
        obtain ⟨ds, hsplit, hdig, hval, hr⟩ := ih _ h
        refine ⟨c :: ds, by simp [hsplit], ?_, by simp [hval], hr⟩
        intro x hx
        rcases List.mem_cons.mp hx with hx | hx
        · exact hx ▸ hc
        · exact hdig x hx
      · rw [if_neg hc] at h
        obtain ⟨rfl, rfl⟩ := Prod.mk.injEq .. ▸ h
        exact ⟨[], rfl, by simp, rfl, by simpa using hc⟩

theorem parse_nat_split (l : List Nat) (n : Nat) (r : List Nat)
    (h : parse_nat l = some (n, r)) :
    ∃ ds, ds ≠ [] ∧ l = ds ++ r ∧ is_digit (r.headD 0) = false ∧
      ∀ r', is_digit (r'.headD 0) = false → parse_nat (ds ++ r') = some (n, r') := by
  cases l with
  | nil => exact Option.noConfusion h
  | cons c rest =>
      simp only [parse_nat] at h
      by_cases hc : is_digit c
      · rw [if_pos hc] at h
        rw [Option.some_inj] at h
        obtain ⟨ds, hsplit, hdig, hval, hr⟩ := read_digits_split rest (c - 48) n r h
        refine ⟨c :: ds, by simp, by simp [hsplit], hr, ?_⟩
        intro r' hr'
        simp only [List.cons_append, parse_nat]
        rw [if_pos hc, read_digits_append ds r' (c - 48) hdig hr', ← hval]
      · rw [if_neg hc] at h
        exact Option.noConfusion h

theorem parse_str_split (l s r : List Nat) (h : parse_str l = some (s, r)) :
    ∃ ds, ds ≠ [] ∧ l = (ds ++ 58 :: s) ++ r ∧
      ∀ r', parse_str ((ds ++ 58 :: s) ++ r') = some (s, r') := by
  simp only [parse_str] at h
  split at h
  · rename_i n rest hpn
    split_ifs at h with hle
    rw [Option.some_inj, Prod.mk.injEq] at h
    obtain ⟨hs, hr⟩ := h
    obtain ⟨ds, hne, hsplit, _, hreplay⟩ := parse_nat_split l n (58 :: rest) hpn
    have hslen : s.length = n := by rw [← hs, List.length_take]; omega
    refine ⟨ds, hne, ?_, ?_⟩
    · rw [hsplit, ← hs, ← hr]
      simp [List.append_assoc]
    · intro r'
      have h1 := hreplay (58 :: (s ++ r')) (by rfl)
      simp only [List.append_assoc, List.cons_append] at h1 ⊢
      simp only [parse_str, h1]
      show (if n ≤ (s ++ r').length then some ((s ++ r').take n, (s ++ r').drop n)
        else none) = some (s, r')
      rw [if_pos (by rw [List.length_append]; omega)]
      rw [List.take_left' hslen, List.drop_left' hslen]
  · exact Option.noConfusion h

theorem parse_int_body_split (l : List Nat) (z : Int) (r : List Nat)
    (h : parse_int_body l = some (z, r)) :
    ∃ c, c ≠ [] ∧ l = c ++ r ∧ ∀ r', parse_int_body (c ++ r') = some (z, r') := by
  unfold parse_int_body at h
  split at h
  · rename_i rest
    split at h
    · rename_i n rest2 hpn
      rw [Option.some_inj, Prod.mk.injEq] at h
      obtain ⟨hz, hr⟩ := h
      obtain ⟨ds, hne, hsplit, _, hreplay⟩ := parse_nat_split rest n (101 :: rest2) hpn
      refine ⟨45 :: (ds ++ [101]), by simp, ?_, ?_⟩
      · rw [hsplit, ← hr]
        simp [List.append_assoc]
      · intro r'
        have h1 := hreplay (101 :: r') (by rfl)
        simp only [List.cons_append, List.append_assoc, List.singleton_append]
        show (match parse_nat (ds ++ 101 :: r') with
              | some (n, 101 :: rest2) => some (-(n : Int), rest2)
              | _ => none) = some (z, r')
        rw [h1]
        show some (-(n : Int), r') = some (z, r')
        rw [hz]
    · exact Option.noConfusion h
  · rename_i hno45
    split at h
    · rename_i n rest2 hpn
      rw [Option.some_inj, Prod.mk.injEq] at h
      obtain ⟨hz, hr⟩ := h
      obtain ⟨ds, hne, hsplit, _, hreplay⟩ := parse_nat_split l n (101 :: rest2) hpn
      cases ds with
      | nil => exact absurd rfl hne
      | cons d0 ds' =>
          have hd45 : d0 ≠ 45 := by
            intro hd
            subst hd
            exact hno45 (ds' ++ 101 :: rest2) (by rw [hsplit]; rfl)
          refine ⟨(d0 :: ds') ++ [101], by simp, ?_, ?_⟩
          · rw [hsplit, ← hr]
            simp [List.append_assoc]
          · intro r'
            have h1 := hreplay (101 :: r') (by rfl)
            simp only [List.cons_append, List.append_assoc, List.singleton_append,
              List.nil_append] at h1 ⊢
            unfold parse_int_body
            split
            · rename_i rest3 heq
              rw [List.cons.injEq] at heq
              exact absurd heq.1 hd45
            · rw [h1]
              show some ((n : Int), r') = some (z, r')
              rw [hz]
    · exact Option.noConfusion h

theorem parse_localized : ∀ fuel : Nat,
    (∀ l v r, parse_val fuel l = some (v, r) →
      ∃ c, c ≠ [] ∧ l = c ++ r ∧ ∀ r', parse_val fuel (c ++ r') = some (v, r')) ∧
    (∀ l xs r, parse_items fuel l = some (xs, r) →
      ∃ c, c ≠ [] ∧ l = c ++ r ∧ ∀ r', parse_items fuel (c ++ r') = some (xs, r')) ∧
    (∀ l es r, parse_entries fuel l = some (es, r) →
      ∃ c, c ≠ [] ∧ l = c ++ r ∧ ∀ r', parse_entries fuel (c ++ r') = some (es, r')) := by
  intro fuel
  induction fuel with
  | zero =>
      refine ⟨?_, ?_, ?_⟩ <;> intro l a r h <;>
        simp [parse_val, parse_items, parse_entries] at h
  | succ f ih =>
      obtain ⟨ihv, ihi, ihe⟩ := ih
      refine ⟨?_, ?_, ?_⟩
      · intro l v r h
        cases l with
        | nil => simp [parse_val] at h
        | cons c0 rest =>
            simp only [parse_val] at h
            by_cases h105 : c0 = 105
            · subst h105
              rw [if_pos rfl, Option.map_eq_some'] at h
              obtain ⟨⟨z, r2⟩, hp, hv⟩ := h
              rw [Prod.mk.injEq] at hv
              obtain ⟨hv1, hv2⟩ := hv
              subst hv1
              subst hv2
              obtain ⟨cib, hne, hsplit, hreplay⟩ := parse_int_body_split rest z r2 hp
              refine ⟨105 :: cib, by simp, by simp [hsplit], ?_⟩
              intro r'
              simp only [List.cons_append, parse_val]
              rw [if_pos trivial, hreplay r']
              rfl
            · by_cases h108 : c0 = 108
              · subst h108
                rw [if_neg (by omega), if_pos rfl, Option.map_eq_some'] at h
                obtain ⟨⟨xs, r2⟩, hp, hv⟩ := h
                rw [Prod.mk.injEq] at hv
                obtain ⟨hv1, hv2⟩ := hv
                subst hv1
                subst hv2
                obtain ⟨c, hne, hsplit, hreplay⟩ := ihi rest xs r2 hp
                refine ⟨108 :: c, by simp, by simp [hsplit], ?_⟩
                intro r'
                simp only [List.cons_append, parse_val]
                rw [if_pos trivial, hreplay r']
                rfl
              · by_cases h100 : c0 = 100
                · subst h100
                  rw [if_neg (by omega), if_neg (by omega), if_pos rfl,
                    Option.map_eq_some'] at h
                  obtain ⟨⟨es, r2⟩, hp, hv⟩ := h
                  rw [Prod.mk.injEq] at hv
                  obtain ⟨hv1, hv2⟩ := hv
                  subst hv1
                  subst hv2
                  obtain ⟨c, hne, hsplit, hreplay⟩ := ihe rest es r2 hp
                  refine ⟨100 :: c, by simp, by simp [hsplit], ?_⟩
                  intro r'
                  simp only [List.cons_append, parse_val]
                  rw [if_pos trivial, hreplay r']
                  rfl
                · rw [if_neg h105, if_neg h108, if_neg h100, Option.map_eq_some'] at h
                  obtain ⟨⟨s, r2⟩, hp, hv⟩ := h
                  rw [Prod.mk.injEq] at hv
                  obtain ⟨hv1, hv2⟩ := hv
                  subst hv1
                  subst hv2
                  obtain ⟨ds, hdne, hsplit, hreplay⟩ := parse_str_split (c0 :: rest) s r2 hp
                  cases ds with
                  | nil => exact absurd rfl hdne
                  | cons d0 ds' =>
                      have hd0 : d0 = c0 := by
                        have := hsplit
                        simp only [List.cons_append, List.append_assoc,
                          List.cons.injEq] at this
                        exact this.1.symm
                      subst hd0
                      refine ⟨(d0 :: ds') ++ 58 :: s, by simp, hsplit, ?_⟩
                      intro r'
                      have h1 := hreplay r'
                      simp only [List.cons_append, List.append_assoc,
                        List.nil_append] at h1 ⊢
                      simp only [parse_val]
                      rw [if_neg h105, if_neg h108, if_neg h100]
                      exact Option.map_eq_some'.mpr ⟨(s, r'), h1, rfl⟩
      · intro l xs r h
        cases l with
        | nil => simp [parse_items] at h
        | cons c0 rest =>
            simp only [parse_items] at h
            by_cases h101 : c0 = 101
            · subst h101
              rw [if_pos rfl, Option.some_inj, Prod.mk.injEq] at h
              obtain ⟨hxs, hr⟩ := h
              subst hxs
              subst hr
              refine ⟨[101], by simp, rfl, ?_⟩
              intro r'
              simp [parse_items]
            · rw [if_neg h101, Option.bind_eq_some] at h
              obtain ⟨⟨v, m⟩, hv, h2⟩ := h
              rw [Option.map_eq_some'] at h2
              obtain ⟨⟨xs', r2⟩, hxs, hpair⟩ := h2
              rw [Prod.mk.injEq] at hpair
              obtain ⟨hp1, hp2⟩ := hpair
              subst hp1
              subst hp2
              obtain ⟨cv, hvne, hvsplit, hvreplay⟩ := ihv (c0 :: rest) v m hv
              obtain ⟨ci, hine, hisplit, hireplay⟩ := ihi m xs' r2 hxs
              cases cv with
              | nil => exact absurd rfl hvne
              | cons d0 cv' =>
                  have hd0 : d0 = c0 := by
                    have := hvsplit
                    rw [List.cons_append, List.cons.injEq] at this
                    exact this.1.symm
                  subst hd0
                  refine ⟨(d0 :: cv') ++ ci, by simp, ?_, ?_⟩
                  · rw [hvsplit, hisplit, List.append_assoc]
                  · intro r'
                    have h1 := hvreplay (ci ++ r')
                    simp only [List.cons_append, List.append_assoc] at h1 ⊢
                    simp only [parse_items]
                    rw [if_neg h101]
                    exact Option.bind_eq_some.mpr ⟨(v, ci ++ r'), h1,
                      Option.map_eq_some'.mpr ⟨(xs', r'), hireplay r', rfl⟩⟩
      · intro l es r h
        cases l with
        | nil => simp [parse_entries] at h
        | cons c0 rest =>
            simp only [parse_entries] at h
            by_cases h101 : c0 = 101
            · subst h101
              rw [if_pos rfl, Option.some_inj, Prod.mk.injEq] at h
              obtain ⟨hes, hr⟩ := h
              subst hes
              subst hr
              refine ⟨[101], by simp, rfl, ?_⟩
              intro r'
              simp [parse_entries]
            · rw [if_neg h101, Option.bind_eq_some] at h
              obtain ⟨⟨k, m1⟩, hk, h2⟩ := h
              rw [Option.bind_eq_some] at h2
              obtain ⟨⟨v, m2⟩, hv, h3⟩ := h2
              rw [Option.map_eq_some'] at h3
              obtain ⟨⟨es', r2⟩, hes, hpair⟩ := h3
              rw [Prod.mk.injEq] at hpair
              obtain ⟨hp1, hp2⟩ := hpair
              subst hp1
              subst hp2
              obtain ⟨dk, hkne, hksplit, hkreplay⟩ := parse_str_split (c0 :: rest) k m1 hk
              obtain ⟨cv, hvne, hvsplit, hvreplay⟩ := ihv m1 v m2 hv
              obtain ⟨ce, hene, hesplit, hereplay⟩ := ihe m2 es' r2 hes
              cases dk with
              | nil => exact absurd rfl hkne
              | cons d0 dk' =>
                  have hd0 : d0 = c0 := by
                    have := hksplit
                    simp only [List.cons_append, List.append_assoc,
                      List.cons.injEq] at this
                    exact this.1.symm
                  subst hd0
                  refine ⟨((d0 :: dk') ++ 58 :: k) ++ (cv ++ ce), by simp, ?_, ?_⟩
                  · rw [hksplit, hvsplit, hesplit]
                    simp [List.append_assoc]
                  · intro r'
                    have h1 := hkreplay (cv ++ (ce ++ r'))
                    simp only [List.cons_append, List.append_assoc,
                      List.nil_append] at h1 ⊢
                    simp only [parse_entries]
                    rw [if_neg h101]
                    exact Option.bind_eq_some.mpr ⟨(k, cv ++ (ce ++ r')), h1,
                      Option.bind_eq_some.mpr ⟨(v, ce ++ r'), hvreplay (ce ++ r'),
                        Option.map_eq_some'.mpr ⟨(es', r'), hereplay r', rfl⟩⟩⟩

theorem parse_val_det (f1 f2 : Nat) (l : List Nat) (x y : Bencode × List Nat)
    (h1 : parse_val f1 l = some x) (h2 : parse_val f2 l = some y) : x = y := by
  rcases Nat.le_total f1 f2 with h | h
  · have h3 := (parse_mono f1 f2 h).1 l x h1
    rw [h3, Option.some_inj] at h2
    exact h2
  · have h3 := (parse_mono f2 f1 h).1 l y h2
    rw [h3, Option.some_inj] at h1
    exact h1.symm

/-- Correspondence between the spec's byte-range scanner and the parser: on
a dictionary body that parses, info_slice_core finds a byte range exactly
when the parsed entries contain an info key (last binding), and that range
re-parses to the very value the parser produced for that key. -/
theorem info_slice_core_entries : ∀ (fuel : Nat) (l : List Nat)
    (es : List (List Nat × Bencode)) (r : List Nat),
    parse_entries fuel l = some (es, r) →
    ((lookup_last info_key es = none ∧ info_slice_core fuel l = none) ∨
     (∃ v s fv, lookup_last info_key es = some v ∧ info_slice_core fuel l = some s ∧
        parse_val fv s = some (v, []))) := by
  intro fuel
  induction fuel with
  | zero => intro l es r h; simp [parse_entries] at h
  | succ f ih =>
      intro l es r h
      cases l with
      | nil => simp [parse_entries] at h
      | cons c0 rest =>
          simp only [parse_entries] at h
          by_cases h101 : c0 = 101
          · subst h101
            rw [if_pos rfl, Option.some_inj, Prod.mk.injEq] at h
            obtain ⟨hes, hr⟩ := h
            subst hes
            left
            exact ⟨rfl, by simp [info_slice_core]⟩
          · rw [if_neg h101, Option.bind_eq_some] at h
            obtain ⟨⟨k, m1⟩, hk, h2⟩ := h
            rw [Option.bind_eq_some] at h2
            obtain ⟨⟨v1, m2⟩, hv, h3⟩ := h2
            rw [Option.map_eq_some'] at h3
            obtain ⟨⟨es', r2⟩, hes, hpair⟩ := h3
            rw [Prod.mk.injEq] at hpair
            obtain ⟨hp1, hp2⟩ := hpair
            subst hp1
            subst hp2
            have hcore : info_slice_core (f + 1) (c0 :: rest) =
                match info_slice_core f m2 with
                | some s => some s
                | none =>
                    if k = info_key then some (m1.take (m1.length - m2.length))
                    else none := by
              simp only [info_slice_core]
              rw [if_neg h101, hk]
              simp only [Option.some_bind]
              rw [hv]
              rfl
            rcases ih m2 es' r2 hes with ⟨hnone, hcnone⟩ | ⟨v, s, fv, hsome, hcsome, hps⟩
            · by_cases hkinfo : k = info_key
              · right
                refine ⟨v1, m1.take (m1.length - m2.length), f, ?_, ?_, ?_⟩
                · simp [lookup_last, hnone, hkinfo]
                · rw [hcore, hcnone]
                  simp [hkinfo]
                · obtain ⟨cv, hcne, hcsplit, hcreplay⟩ := (parse_localized f).1 m1 v1 m2 hv
                  have htake : m1.take (m1.length - m2.length) = cv := by
                    rw [hcsplit, List.length_append, Nat.add_sub_cancel,
                      List.take_left]
                  rw [htake]
                  simpa using hcreplay []
              · left
                refine ⟨?_, ?_⟩
                · simp [lookup_last, hnone, hkinfo]
                · rw [hcore, hcnone]
                  simp [hkinfo]
            · right
              refine ⟨v, s, fv, ?_, ?_, hps⟩
              · simp [lookup_last, hsome]
              · rw [hcore, hcsome]

theorem from_file_inv (data : List Nat) (t : Torrent)
    (h : Torrent.from_file data = Except.ok t) :
    ∃ entries rest0 info_val,
      parse_val (data.length + 1) data = some (Bencode.dict entries, rest0) ∧
      lookup_last info_key entries = some info_val ∧
      t.info_raw_bytes = bencode_to_bytes info_val := by
  unfold Torrent.from_file at h
  repeat' split at h
  all_goals try exact Except.noConfusion h
  all_goals simp only [Except.ok.injEq] at h
  all_goals exact ⟨_, _, _, by assumption, by assumption, by rw [← h]⟩

/-- C1 (amended): Torrent::info_hash is the SHA-1 of serde_bencode's
canonical re-encoding of the parsed info value, not of the source byte
range; the two agree exactly when the info sub-dictionary's source bytes
are already canonically encoded.  Formally: if from_file accepts the data,
the byte range of the info value (from its opening d to its matching e)
is s, and s is canonical — it parses to a value whose re-encoding is s
itself — then info_hash equals SHA-1 of s. -/
theorem info_hash_canonical (data s : List Nat) (t : Torrent)
    (hf : Torrent.from_file data = Except.ok t)
    (hs : info_slice data = some s)
    (hc : ∃ v, parse_val (s.length + 1) s = some (v, []) ∧ bencode_to_bytes v = s) :
    Torrent.info_hash t = sha1 s := by
  obtain ⟨entries, rest0, info_val, hpv, hlook, hraw⟩ := from_file_inv data t hf
  obtain ⟨v, hvs, hvenc⟩ := hc
  unfold info_slice at hs
  split at hs
  · rename_i body
    have hpe : parse_entries (body.length + 1) body = some (entries, rest0) := by
      simp only [List.length_cons, parse_val] at hpv
      cases hpe2 : parse_entries (body.length + 1) body with
      | none =>
          rw [hpe2] at hpv
          first
          | exact Option.noConfusion hpv
          | exact Option.noConfusion hpv.symm
      | some pr =>
          rw [hpe2] at hpv
          have hkey : (some (Bencode.dict pr.1, pr.2) : Option (Bencode × List Nat)) =
              some (Bencode.dict entries, rest0) := by
            first
            | exact hpv
            | exact hpv.symm
          rw [Option.some_inj, Prod.mk.injEq, Bencode.dict.injEq] at hkey
          rw [← hkey.1, ← hkey.2]
    rcases info_slice_core_entries (body.length + 1) body entries rest0 hpe with
      ⟨hnone, _⟩ | ⟨v', s', fv, hsome', hcsome, hps⟩
    · rw [hnone] at hlook
      exact Option.noConfusion hlook
    · rw [hlook, Option.some_inj] at hsome'
      simp only [List.length_cons] at hs
      rw [hs, Option.some_inj] at hcsome
      subst hcsome
      subst hsome'
      have hdet := parse_val_det fv (s.length + 1) s (info_val, []) (v, []) hps hvs
      rw [Prod.mk.injEq] at hdet
      unfold Torrent.info_hash
      rw [hraw, hdet.1, hvenc]
  · exact Option.noConfusion hs

set_option maxRecDepth 40000 in
/-- C1 counterexample: a torrent file whose info dictionary keys appear in
non-sorted source order (pieces, name, piece length) is accepted by
Torrent::from_file, its source info byte range is sliceNC, yet the computed
info_hash differs from the SHA-1 of those source bytes, because the code
hashes serde_bencode's re-encoding (which sorts the keys). -/
theorem info_hash_noncanonical_counterexample :
    ∃ t, Torrent.from_file dataNC = Except.ok t ∧
      info_slice dataNC = some sliceNC ∧
      Torrent.info_hash t ≠ sha1 sliceNC :=
  ⟨_, rfl, rfl, by decide⟩

set_option maxRecDepth 40000 in
theorem info_hash_canonical_witness :
    ∃ t, Torrent.from_file dataC = Except.ok t ∧ Torrent.info_hash t = sha1 sliceC :=
  ⟨_, rfl, info_hash_canonical dataC sliceC _ rfl rfl
    ⟨Bencode.dict [(name_key, Bencode.bytes []),
                   (piece_length_key, Bencode.int 1),
                   (pieces_key, Bencode.bytes [])], rfl, rfl⟩⟩

set_option maxRecDepth 100000 in
/-- Duplicate-key behavior of the model, matched against serde_bencode's
HashMap semantics: a torrent whose info dictionary repeats an UNKNOWN key
is accepted (the derived deserializer ignores unknown fields, repeated or
not), but its source byte range is not canonical — the re-encoding that
from_file stores in info_raw_bytes has collapsed the duplicate to its last
binding — so the computed info_hash differs from the SHA-1 of the source
range. -/
theorem dup_unknown_key_not_canonical :
    ∃ t, Torrent.from_file dataDup = Except.ok t ∧
      info_slice dataDup = some sliceDup ∧
      (∃ v, parse_val (sliceDup.length + 1) sliceDup = some (v, []) ∧
        bencode_to_bytes v ≠ sliceDup) ∧
      Torrent.info_hash t ≠ sha1 sliceDup :=
  ⟨_, rfl, rfl, ⟨_, rfl, by decide⟩, by decide⟩

/-- A duplicated KNOWN info field (name twice) makes the derived Info
deserializer fail with duplicate_field, so from_file errors. -/
theorem dup_known_field_rejected :
    Torrent.from_file dataDupKnown =
      Except.error (ApplicationError.TrackerError "invalid torrent field") := by
  rfl

/-! ### Single-entry steps of the dictionary parser -/

theorem parse_entries_cons_step (fuel : Nat) (k rest1 : List Nat) (v : Bencode)
    (r2 r3 : List Nat) (es : List (List Nat × Bencode))
    (hv : parse_val fuel rest1 = some (v, r2))
    (he : parse_entries fuel r2 = some (es, r3)) :
    parse_entries (fuel + 1) (nat_ascii k.length ++ 58 :: (k ++ rest1)) =
      some ((k, v) :: es, r3) := by
  cases h : nat_ascii k.length with
  | nil => exact absurd h (nat_ascii_ne_nil _)
  | cons c ds =>
      have hc : is_digit c = true := nat_ascii_digits _ c (by rw [h]; simp)
      have hcb : 48 ≤ c ∧ c ≤ 57 := by
        simpa [is_digit, Bool.and_eq_true, decide_eq_true_eq] using hc
      simp only [List.cons_append, parse_entries]
      rw [if_neg (by omega)]
      have hps : parse_str (c :: (ds ++ 58 :: (k ++ rest1))) = some (k, rest1) := by
        have hx := parse_str_encode k rest1
        rw [h] at hx
        simpa using hx
      rw [hps]
      simp only [Option.some_bind]
      rw [hv]
      simp only [Option.some_bind]
      rw [he]
      rfl

theorem parse_entries_close (fuel : Nat) (r : List Nat) :
    parse_entries (fuel + 1) (101 :: r) = some ([], r) := by
  simp [parse_entries]

theorem parse_val_dict_step (fuel : Nat) (l : List Nat)
    (es : List (List Nat × Bencode)) (r : List Nat)
    (he : parse_entries fuel l = some (es, r)) :
    parse_val (fuel + 1) (100 :: l) = some (Bencode.dict es, r) := by
  simp only [parse_val]
  rw [if_neg (by omega), if_neg (by omega), if_pos trivial, he]
  rfl

theorem parse_mk_torrent (pieces : List Nat) :
    parse_val 9 (mk_torrent_bytes pieces) =
      some (Bencode.dict [(announce_key, Bencode.bytes [117]),
            (info_key, Bencode.dict [(name_key, Bencode.bytes []),
                                     (piece_length_key, Bencode.int 1),
                                     (pieces_key, Bencode.bytes pieces)])], []) := by
  have h3 : parse_entries 3 (54 :: 58 :: 112 :: 105 :: 101 :: 99 :: 101 :: 115 ::
      (nat_ascii pieces.length ++ 58 :: (pieces ++ [101, 101]))) =
      some ([(pieces_key, Bencode.bytes pieces)], [101]) :=
    parse_entries_cons_step 2 pieces_key
      (nat_ascii pieces.length ++ 58 :: (pieces ++ [101, 101]))
      (Bencode.bytes pieces) [101, 101] [101] []
      (parse_val_str 1 pieces [101, 101])
      (parse_entries_close 1 [101])
  have h4 : parse_entries 4 (49 :: 50 :: 58 :: 112 :: 105 :: 101 :: 99 :: 101 :: 32 ::
      108 :: 101 :: 110 :: 103 :: 116 :: 104 :: 105 :: 49 :: 101 ::
      (54 :: 58 :: 112 :: 105 :: 101 :: 99 :: 101 :: 115 ::
        (nat_ascii pieces.length ++ 58 :: (pieces ++ [101, 101])))) =
      some ([(piece_length_key, Bencode.int 1), (pieces_key, Bencode.bytes pieces)], [101]) :=
    parse_entries_cons_step 3 piece_length_key
      (105 :: 49 :: 101 :: (54 :: 58 :: 112 :: 105 :: 101 :: 99 :: 101 :: 115 ::
        (nat_ascii pieces.length ++ 58 :: (pieces ++ [101, 101]))))
      (Bencode.int 1)
      (54 :: 58 :: 112 :: 105 :: 101 :: 99 :: 101 :: 115 ::
        (nat_ascii pieces.length ++ 58 :: (pieces ++ [101, 101])))
      [101] [(pieces_key, Bencode.bytes pieces)]
      rfl h3
  have h5 : parse_entries 5 (52 :: 58 :: 110 :: 97 :: 109 :: 101 :: 48 :: 58 ::
      (49 :: 50 :: 58 :: 112 :: 105 :: 101 :: 99 :: 101 :: 32 ::
        108 :: 101 :: 110 :: 103 :: 116 :: 104 :: 105 :: 49 :: 101 ::
        (54 :: 58 :: 112 :: 105 :: 101 :: 99 :: 101 :: 115 ::
          (nat_ascii pieces.length ++ 58 :: (pieces ++ [101, 101]))))) =
      some ([(name_key, Bencode.bytes []), (piece_length_key, Bencode.int 1),
             (pieces_key, Bencode.bytes pieces)], [101]) :=
    parse_entries_cons_step 4 name_key
      (48 :: 58 ::
        (49 :: 50 :: 58 :: 112 :: 105 :: 101 :: 99 :: 101 :: 32 ::
          108 :: 101 :: 110 :: 103 :: 116 :: 104 :: 105 :: 49 :: 101 ::
          (54 :: 58 :: 112 :: 105 :: 101 :: 99 :: 101 :: 115 ::
            (nat_ascii pieces.length ++ 58 :: (pieces ++ [101, 101])))))
      (Bencode.bytes [])
      (49 :: 50 :: 58 :: 112 :: 105 :: 101 :: 99 :: 101 :: 32 ::
        108 :: 101 :: 110 :: 103 :: 116 :: 104 :: 105 :: 49 :: 101 ::
        (54 :: 58 :: 112 :: 105 :: 101 :: 99 :: 101 :: 115 ::
          (nat_ascii pieces.length ++ 58 :: (pieces ++ [101, 101]))))
      [101]
      [(piece_length_key, Bencode.int 1), (pieces_key, Bencode.bytes pieces)]
      (parse_val_str 3 []
        (49 :: 50 :: 58 :: 112 :: 105 :: 101 :: 99 :: 101 :: 32 ::
          108 :: 101 :: 110 :: 103 :: 116 :: 104 :: 105 :: 49 :: 101 ::
          (54 :: 58 :: 112 :: 105 :: 101 :: 99 :: 101 :: 115 ::
            (nat_ascii pieces.length ++ 58 :: (pieces ++ [101, 101])))))
      h4
  have h6 : parse_val 6 (100 :: (52 :: 58 :: 110 :: 97 :: 109 :: 101 :: 48 :: 58 ::
      (49 :: 50 :: 58 :: 112 :: 105 :: 101 :: 99 :: 101 :: 32 ::
        108 :: 101 :: 110 :: 103 :: 116 :: 104 :: 105 :: 49 :: 101 ::
        (54 :: 58 :: 112 :: 105 :: 101 :: 99 :: 101 :: 115 ::
          (nat_ascii pieces.length ++ 58 :: (pieces ++ [101, 101])))))) =
      some (Bencode.dict [(name_key, Bencode.bytes []), (piece_length_key, Bencode.int 1),
            (pieces_key, Bencode.bytes pieces)], [101]) :=
    parse_val_dict_step 5 _ _ _ h5
  have h7 : parse_entries 7 (52 :: 58 :: 105 :: 110 :: 102 :: 111 ::
      (100 :: (52 :: 58 :: 110 :: 97 :: 109 :: 101 :: 48 :: 58 ::
        (49 :: 50 :: 58 :: 112 :: 105 :: 101 :: 99 :: 101 :: 32 ::
          108 :: 101 :: 110 :: 103 :: 116 :: 104 :: 105 :: 49 :: 101 ::
          (54 :: 58 :: 112 :: 105 :: 101 :: 99 :: 101 :: 115 ::
            (nat_ascii pieces.length ++ 58 :: (pieces ++ [101, 101]))))))) =
      some ([(info_key, Bencode.dict [(name_key, Bencode.bytes []),
              (piece_length_key, Bencode.int 1), (pieces_key, Bencode.bytes pieces)])], []) :=
    parse_entries_cons_step 6 info_key
      (100 :: (52 :: 58 :: 110 :: 97 :: 109 :: 101 :: 48 :: 58 ::
        (49 :: 50 :: 58 :: 112 :: 105 :: 101 :: 99 :: 101 :: 32 ::
          108 :: 101 :: 110 :: 103 :: 116 :: 104 :: 105 :: 49 :: 101 ::
          (54 :: 58 :: 112 :: 105 :: 101 :: 99 :: 101 :: 115 ::
            (nat_ascii pieces.length ++ 58 :: (pieces ++ [101, 101]))))))
      (Bencode.dict [(name_key, Bencode.bytes []), (piece_length_key, Bencode.int 1),
        (pieces_key, Bencode.bytes pieces)])
      [101] [] []
      ((parse_mono 6 6 (by omega)).1 _ _ h6)
      (parse_entries_close 5 [])
  have h8 : parse_entries 8 (56 :: 58 :: 97 :: 110 :: 110 :: 111 :: 117 :: 110 :: 99 :: 101 ::
      (49 :: 58 :: 117 ::
        (52 :: 58 :: 105 :: 110 :: 102 :: 111 ::
          (100 :: (52 :: 58 :: 110 :: 97 :: 109 :: 101 :: 48 :: 58 ::
            (49 :: 50 :: 58 :: 112 :: 105 :: 101 :: 99 :: 101 :: 32 ::
              108 :: 101 :: 110 :: 103 :: 116 :: 104 :: 105 :: 49 :: 101 ::
              (54 :: 58 :: 112 :: 105 :: 101 :: 99 :: 101 :: 115 ::
                (nat_ascii pieces.length ++ 58 :: (pieces ++ [101, 101]))))))))) =
      some ([(announce_key, Bencode.bytes [117]),
             (info_key, Bencode.dict [(name_key, Bencode.bytes []),
               (piece_length_key, Bencode.int 1), (pieces_key, Bencode.bytes pieces)])], []) :=
    parse_entries_cons_step 7 announce_key
      (49 :: 58 :: 117 ::
        (52 :: 58 :: 105 :: 110 :: 102 :: 111 ::
          (100 :: (52 :: 58 :: 110 :: 97 :: 109 :: 101 :: 48 :: 58 ::
            (49 :: 50 :: 58 :: 112 :: 105 :: 101 :: 99 :: 101 :: 32 ::
              108 :: 101 :: 110 :: 103 :: 116 :: 104 :: 105 :: 49 :: 101 ::
              (54 :: 58 :: 112 :: 105 :: 101 :: 99 :: 101 :: 115 ::
                (nat_ascii pieces.length ++ 58 :: (pieces ++ [101, 101]))))))))
      (Bencode.bytes [117])
      (52 :: 58 :: 105 :: 110 :: 102 :: 111 ::
        (100 :: (52 :: 58 :: 110 :: 97 :: 109 :: 101 :: 48 :: 58 ::
          (49 :: 50 :: 58 :: 112 :: 105 :: 101 :: 99 :: 101 :: 32 ::
            108 :: 101 :: 110 :: 103 :: 116 :: 104 :: 105 :: 49 :: 101 ::
            (54 :: 58 :: 112 :: 105 :: 101 :: 99 :: 101 :: 115 ::
              (nat_ascii pieces.length ++ 58 :: (pieces ++ [101, 101])))))))
      []
      [(info_key, Bencode.dict [(name_key, Bencode.bytes []),
        (piece_length_key, Bencode.int 1), (pieces_key, Bencode.bytes pieces)])]
      (parse_val_str 6 [117]
        (52 :: 58 :: 105 :: 110 :: 102 :: 111 ::
          (100 :: (52 :: 58 :: 110 :: 97 :: 109 :: 101 :: 48 :: 58 ::
            (49 :: 50 :: 58 :: 112 :: 105 :: 101 :: 99 :: 101 :: 32 ::
              108 :: 101 :: 110 :: 103 :: 116 :: 104 :: 105 :: 49 :: 101 ::
              (54 :: 58 :: 112 :: 105 :: 101 :: 99 :: 101 :: 115 ::
                (nat_ascii pieces.length ++ 58 :: (pieces ++ [101, 101]))))))))
      h7
  exact parse_val_dict_step 8 _ _ _ h8

theorem from_file_mk_torrent (pieces : List Nat) :
    Torrent.from_file (mk_torrent_bytes pieces) =
      Except.ok
        { announce := [117],
          info := { name := [], piece_length := 1, pieces := pieces,
                    length := none, files := none },
          info_raw_bytes := bencode_to_bytes (Bencode.dict
            [(name_key, Bencode.bytes []), (piece_length_key, Bencode.int 1),
             (pieces_key, Bencode.bytes pieces)]) } := by
  have hlen : 9 ≤ (mk_torrent_bytes pieces).length + 1 := by
    simp [mk_torrent_bytes]
  have hp := (parse_mono 9 ((mk_torrent_bytes pieces).length + 1) hlen).1 _ _
    (parse_mk_torrent pieces)
  unfold Torrent.from_file
  rw [hp]
  rfl

/-- C5: contrary to the claim, Torrent::from_file performs no divisibility
check on the pieces byte string: a torrent whose pieces field has ANY length
(divisible by 20 or not) is loaded successfully, the pieces bytes are stored
verbatim, and pieces_count is the length divided by 20 rounding down. -/
theorem from_file_no_pieces_validation (pieces : List Nat) :
    ∃ t, Torrent.from_file (mk_torrent_bytes pieces) = Except.ok t ∧
      t.info.pieces = pieces ∧ t.pieces_count = pieces.length / 20 :=
  ⟨_, from_file_mk_torrent pieces, rfl, rfl⟩

/-- C5 counterexample: a torrent file whose pieces string has length 21 (not
divisible by 20) is accepted by Torrent::from_file — no InconsistentLength
error is raised — and pieces_count silently rounds down to 1. -/
theorem pieces_length_21_counterexample :
    ∃ t, Torrent.from_file (mk_torrent_bytes (List.replicate 21 65)) = Except.ok t ∧
      t.info.pieces.length = 21 ∧ t.info.pieces.length % 20 ≠ 0 ∧
      t.pieces_count = 1 :=
  ⟨_, from_file_mk_torrent (List.replicate 21 65), by decide, by decide, by decide⟩

end Torrentz
